import Mathlib

/-!
Verification of the dagit object-store reader against its specification.

Go byte strings are modelled as `List Nat` (byte values); paths are lists of
path components (each a byte string).  Functions that can terminate the Go
process (`panic`, `log.Fatal`) or fail are modelled in `Option`, with `none`
standing for the aborted computation.
-/

set_option maxRecDepth 100000

namespace Dagit

/-- Byte constant SPACE from git_types.go / part_004. -/
def space : Nat := 32

/-- Byte constant NUL from git_types.go / part_004. -/
def nul : Nat := 0

/-- ASCII whitespace bytes trimmed by strings.TrimSpace (the inputs handled
here are ASCII, where Go's unicode space set restricted to one byte is
exactly tab, LF, VT, FF, CR, space). -/
def isWhite (b : Nat) : Bool :=
  b == 9 || b == 10 || b == 11 || b == 12 || b == 13 || b == 32

/-- strings.TrimSpace on a byte string. -/
def trimSpace (s : List Nat) : List Nat :=
  ((s.dropWhile isWhite).reverse.dropWhile isWhite).reverse

/-- strings.Trim(s, "\n"): strip newline bytes from both ends. -/
def trimNL (s : List Nat) : List Nat :=
  ((s.dropWhile (· == 10)).reverse.dropWhile (· == 10)).reverse

/-- strings.Split(s, sep) for a one-byte separator. -/
def splitByte (sep : Nat) : List Nat → List (List Nat)
  | [] => [[]]
  | b :: rest =>
    if b = sep then
      [] :: splitByte sep rest
    else
      match splitByte sep rest with
      | h :: t => (b :: h) :: t
      | [] => [[b]]

/-- strings.Split(s, sep) for the two-byte separator LF LF (leftmost,
non-overlapping occurrences, as in Go). -/
def split2NL : List Nat → List (List Nat)
  | 10 :: 10 :: rest => [] :: split2NL rest
  | b :: rest =>
    match split2NL rest with
    | h :: t => (b :: h) :: t
    | [] => [[b]]
  | [] => [[]]

/-- The segment of `s` before its first blank-line separator (LF LF),
or all of `s` when there is none. -/
def beforeBlank : List Nat → List Nat
  | 10 :: 10 :: _ => []
  | b :: rest => b :: beforeBlank rest
  | [] => []

/-- The remainder of `s` after its first blank-line separator (LF LF),
`none` when `s` has no blank line. -/
def afterBlank : List Nat → Option (List Nat)
  | 10 :: 10 :: rest => some rest
  | _ :: rest => afterBlank rest
  | [] => none

/-- strings.Index(s, c) for a one-byte needle: index of the first
occurrence, `none` for Go's -1. -/
def indexOfByte (c : Nat) : List Nat → Option Nat
  | [] => none
  | b :: rest =>
    if b = c then some 0 else (indexOfByte c rest).map (· + 1)

/-- Go slice expression s[a:b] for indices already known to be in bounds. -/
def goSlice (s : List Nat) (a b : Nat) : List Nat :=
  (s.drop a).take (b - a)

/-- Go slice expression s[a:b] with the bounds check; `none` models the
slice-out-of-range panic. -/
def slice? (s : List Nat) (a b : Nat) : Option (List Nat) :=
  if a ≤ b ∧ b ≤ s.length then some (goSlice s a b) else none

/-- Helper for findFirstMatch: scan the remaining bytes, tracking the
absolute index. -/
def findAux (m : Nat) : List Nat → Nat → Option Nat
  | [], _ => none
  | b :: rest, i => if b = m then some i else findAux m rest (i + 1)

/-- utils.go findFirstMatch: first index ≥ start whose byte equals the
match byte; `none` models the (-1, error) return. -/
def findFirstMatch (m start : Nat) (data : List Nat) : Option Nat :=
  findAux m (data.drop start) start

/-- strconv.ParseInt(s, 10, 64): optional sign, one or more decimal
digits, 64-bit range check.  `none` models the parse error. -/
def goParseInt (s : List Nat) : Option Int :=
  let core : List Nat → Bool → Option Int := fun digits neg =>
    if digits = [] then none
    else if digits.all (fun b => 48 ≤ b && b ≤ 57) then
      let v : Nat := digits.foldl (fun acc b => 10 * acc + (b - 48)) 0
      let i : Int := if neg then -(v : Int) else (v : Int)
      if -(2 ^ 63) ≤ i ∧ i < 2 ^ 63 then some i else none
    else none
  match s with
  | 45 :: rest => core rest true
  | 43 :: rest => core rest false
  | _ => core s false

/-- utils.go getTime: parse a decimal unix timestamp; log.Fatal on a parse
error is modelled by `none`. -/
def getTime (s : List Nat) : Option Int :=
  goParseInt s

/-- The unix seconds of Go's zero time.Time (January 1, year 1 UTC); commit
and author times keep this value when no committer/author line is seen. -/
def goZeroTimeUnix : Int := -62135596800

/-- One hex digit (lowercase), as hex.EncodeToString produces. -/
def hexDigit (n : Nat) : Nat :=
  if n < 10 then 48 + n else 87 + n

/-- hex.EncodeToString on a byte string (result again as ASCII bytes). -/
def hexEncode (s : List Nat) : List Nat :=
  s.flatMap (fun b => [hexDigit (b / 16), hexDigit (b % 16)])

/-- Value of one lowercase hex digit byte (only applied to valid digits). -/
def hexVal (c : Nat) : Nat :=
  if 48 ≤ c ∧ c ≤ 57 then c - 48
  else if 97 ≤ c ∧ c ≤ 102 then c - 87
  else 0

/-- Decode a lowercase-hex byte string two digits at a time (used only by
the specification-side tree serializer). -/
def hexDecode : List Nat → List Nat
  | c1 :: c2 :: rest => (16 * hexVal c1 + hexVal c2) :: hexDecode rest
  | [_] => []
  | [] => []

/-- strconv.Itoa digits helper; the fuel, at least the number of digits,
makes the recursion structural. -/
def itoaAux : Nat → Nat → List Nat
  | 0, _ => []
  | fuel + 1, n =>
    if n = 0 then [] else itoaAux fuel (n / 10) ++ [48 + n % 10]

/-- strconv.Itoa on a natural number. -/
def itoa (n : Nat) : List Nat :=
  if n = 0 then [48] else itoaAux n n

/-! ## Data model (git_types.go / part_004 type declarations) -/

/-- Tag bytes for the word blob. -/
def blobTag : List Nat := [98, 108, 111, 98]

/-- Tag bytes for the word tree. -/
def treeTag : List Nat := [116, 114, 101, 101]

/-- Tag bytes for the word commit. -/
def commitTag : List Nat := [99, 111, 109, 109, 105, 116]

/-- Tag bytes for the word parent. -/
def parentTag : List Nat := [112, 97, 114, 101, 110, 116]

/-- Tag bytes for the word author. -/
def authorTag : List Nat := [97, 117, 116, 104, 111, 114]

/-- Tag bytes for the word committer. -/
def committerTag : List Nat := [99, 111, 109, 109, 105, 116, 116, 101, 114]

/-- Object from git_types.go: type tag, declared size (as a decimal byte
string), source location, content-address name, and the content bytes
after the header. -/
structure Object where
  type_ : List Nat
  size : List Nat
  location : List Nat
  name : List Nat
  content : List Nat
  deriving DecidableEq, Repr

/-- TreeEntry from git_types.go. -/
structure TreeEntry where
  mode : List Nat
  name : List Nat
  hash : List Nat
  deriving DecidableEq, Repr

/-- User from git_types.go. -/
structure User where
  name : List Nat
  email : List Nat
  deriving DecidableEq, Repr

/-- Commit from git_types.go; times are unix seconds, with Go's zero
time.Time modelled as `goZeroTimeUnix`. -/
structure Commit where
  tree : List Nat
  parents : List (List Nat)
  author : User
  committer : User
  message : List Nat
  commitTime : Int
  authorTime : Int
  deriving DecidableEq, Repr

/-- Blob from git_types.go. -/
structure Blob where
  content : List Nat
  size : Int
  deriving DecidableEq, Repr

/-- Branch from git_types.go. -/
structure Branch where
  name : List Nat
  commit : List Nat
  deriving DecidableEq, Repr

/-- Head from git_types.go. -/
structure Head where
  type_ : List Nat
  value : List Nat
  deriving DecidableEq, Repr

/-- Edge from git_types.go. -/
structure Edge where
  src : List Nat
  dest : List Nat
  deriving DecidableEq, Repr

/-! ## Object decoder (git_tools.go GetType / GetSize, part_004 NewObject) -/

/-- git_tools.go GetType: the bytes before the first SPACE, trimmed, plus
the space index.  `none` models the error return (on which NewObject later
panics at a negative slice index). -/
def getType (data : List Nat) : Option (List Nat × Nat) :=
  (findFirstMatch space 0 data).map
    (fun spaceIndex => (trimSpace (goSlice data 0 spaceIndex), spaceIndex))

/-- git_tools.go GetSize: the bytes from the space index up to the first
NUL strictly after it, trimmed, plus the content start index.  `none`
models the error return (on which NewObject later panics). -/
def getSize (spaceIndex : Nat) (data : List Nat) : Option (List Nat × Nat) :=
  (findFirstMatch nul (spaceIndex + 1) data).map
    (fun nulIndex => (trimSpace (goSlice data spaceIndex nulIndex), nulIndex + 1))

/-- git_tools.go getObjectName: base of the parent directory concatenated
with the file base name.  Paths are lists of components; the dot returned
by filepath.Base and filepath.Dir on too-short paths is byte 46. -/
def getObjectName (path : List (List Nat)) : List Nat :=
  match path.reverse with
  | b :: a :: _ => a ++ b
  | [b] => [46] ++ b
  | [] => [46, 46]

/-- Join path components with slash bytes, for the Location field. -/
def joinPath (path : List (List Nat)) : List Nat :=
  match path with
  | [] => []
  | c :: rest => rest.foldl (fun acc p => acc ++ [47] ++ p) c

/-- part_004 NewObject, after the file has been read and decompressed:
decode the header and build the Object.  When GetType or GetSize errors,
the Go code goes on with index -1 and panics at the following negative
slice; both error paths are therefore `none`. -/
def newObjectData (path : List (List Nat)) (data : List Nat) : Option Object :=
  match getType data with
  | none => none
  | some (objType, spaceIndex) =>
    match getSize spaceIndex data with
    | none => none
    | some (size, contentStart) =>
      some ⟨objType, size, joinPath path, getObjectName path, data.drop contentStart⟩

/-! ## Typed-content parsers (git_tools.go ParseBlob / ParseTree / ParseCommit) -/

/-- git_tools.go ParseBlob: strconv.Atoi of the declared size; log.Fatal on
a parse error is `none`. -/
def parseBlob (obj : Object) : Option Blob :=
  (goParseInt obj.size).map (fun n => ⟨obj.content, n⟩)

/-- The inner name scan of ParseTree case 2, on the bytes from index `i`
on: advance while the byte differs from NUL and i < length - 1, returning
the final index.  `rest` is `content.drop i`; an empty `rest` means the
Go access content[i] is out of bounds, modelled as `none`. -/
def scanGo : List Nat → Nat → Nat → Option Nat
  | [], _, _ => none
  | b :: rest, i, total =>
    if b ≠ nul ∧ i < total - 1 then scanGo rest (i + 1) total else some i

/-- ParseTree name scan entry point. -/
def treeScan (content : List Nat) (i : Nat) : Option Nat :=
  scanGo (content.drop i) i content.length

/-- git_tools.go ParseTree loop body: the 3-state cycle over item, start,
stop, carrying the mode and name read by earlier states and the entries
accumulated so far.  The fuel only bounds the iteration count (the Go loop
terminates since stop strictly grows every cycle); out-of-range slices and
the out-of-bounds name scan give `none`, modelling the Go panics.  An item
outside 1..3 never occurs (the Go switch would loop forever). -/
def parseTreeAux (content : List Nat) :
    Nat → Nat → Nat → Nat → List Nat → List Nat → List TreeEntry →
    Option (List TreeEntry)
  | 0, _, _, _, _, _, _ => none
  | fuel + 1, 1, start, stop, _, name, entries =>
    if stop ≤ content.length then
      match slice? content start stop with
      | none => none
      | some modeRaw =>
        parseTreeAux content fuel 2 stop stop (trimSpace modeRaw) name entries
    else some entries
  | fuel + 1, 2, start, stop, mode, _, entries =>
    if stop ≤ content.length then
      match treeScan content start with
      | none => none
      | some i =>
        match slice? content start i with
        | none => none
        | some nameRaw =>
          parseTreeAux content fuel 3 (i + 1) (i + 1 + 20) mode
            (trimSpace nameRaw) entries
    else some entries
  | fuel + 1, 3, start, stop, mode, name, entries =>
    if stop ≤ content.length then
      match slice? content start stop with
      | none => none
      | some hashRaw =>
        parseTreeAux content fuel 1 stop (stop + 6) mode name
          (entries ++ [⟨mode, name, trimSpace (hexEncode hashRaw)⟩])
    else some entries
  | _ + 1, _, _, _, _, _, _ => none

/-- git_tools.go ParseTree on an object's content bytes. -/
def parseTree (content : List Nat) : Option (List TreeEntry) :=
  parseTreeAux content (3 * content.length + 9) 1 0 6 [] [] []

/-- The mutable locals of the ParseCommit header loop. -/
structure CommitState where
  parents : List (List Nat)
  author : User
  committer : User
  commitTime : Int
  authorTime : Int
  deriving DecidableEq, Repr

/-- Initial ParseCommit loop state: empty parents, zero Users and times. -/
def initCommitState : CommitState :=
  ⟨[], ⟨[], []⟩, ⟨[], []⟩, goZeroTimeUnix, goZeroTimeUnix⟩

/-- One iteration of the ParseCommit line loop (git_tools.go lines
176-195).  Lines shorter than 9 bytes are skipped; a parent line slices
bytes 7..47, an author or committer line slices from the prefix to the
first less-than byte and parses the second space-separated token after it
as a unix time.  `none` models the Go panics (slice out of range, index -1
from a missing less-than) and the log.Fatal inside getTime. -/
def processLine (st : CommitState) (line : List Nat) : Option CommitState :=
  if line.length < 9 then some st
  else if goSlice line 0 6 = parentTag then
    (slice? line 7 47).map
      (fun p => { st with parents := st.parents ++ [p] })
  else if goSlice line 0 6 = authorTag then
    match indexOfByte 60 line with
    | none => none
    | some nameEnd =>
      match slice? line 7 nameEnd with
      | none => none
      | some name =>
        let authorLine := splitByte 32 (line.drop nameEnd)
        match authorLine.get? 1 with
        | none => none
        | some timeStr =>
          match getTime timeStr with
          | none => none
          | some t =>
            some { st with
                    author := ⟨name, authorLine.headD []⟩,
                    authorTime := t }
  else if goSlice line 0 9 = committerTag then
    match indexOfByte 60 line with
    | none => none
    | some nameEnd =>
      match slice? line 10 nameEnd with
      | none => none
      | some name =>
        let commiterLine := splitByte 32 (line.drop nameEnd)
        match commiterLine.get? 1 with
        | none => none
        | some timeStr =>
          match getTime timeStr with
          | none => none
          | some t =>
            some { st with
                    committer := ⟨name, commiterLine.headD []⟩,
                    commitTime := t }
  else
    some st

/-- git_tools.go ParseCommit on an object's content bytes: tree hash from
bytes 5..45, the rest from byte 46 split into lines, the message as the
second piece of the split on the double newline trimmed of newlines, then
the line loop.  `none` models the slice and index panics on contents that
are too short or have no blank line, and the log.Fatal of getTime. -/
def parseCommit (content : List Nat) : Option Commit :=
  match slice? content 5 45 with
  | none => none
  | some treeHash =>
    if 46 ≤ content.length then
      let rest := content.drop 46
      let restOfContent := splitByte 10 rest
      match split2NL rest with
      | _ :: m :: _ =>
        match restOfContent.foldlM processLine initCommitState with
        | none => none
        | some st =>
          some ⟨treeHash, st.parents, st.author, st.committer, trimNL m,
                st.commitTime, st.authorTime⟩
      | _ => none
    else none

/-! ## Object store scan (utils.go getBytes, git_tools.go GetObjects,
GetPackedObjects, part_004 NewRepo / refresh / Changed)

The filesystem is modelled as the list of entries a directory walk yields,
in walk order.  Each entry records whether reading or decompressing it
would fail, its decompressed payload, and — for pack files — the objects
the pack reader yields. -/

/-- One object of a pack file, as gitgo.VerifyPack reports it. -/
structure PackedObj where
  ptype : List Nat
  psize : Nat
  pname : List Nat
  pdata : List Nat
  deriving DecidableEq, Repr

/-- One filesystem entry seen by filepath.WalkDir: its absolute path (as
components), whether it is a directory, whether the walk itself reports an
error for it, whether os.ReadFile fails, whether zlib decoding fails, the
decompressed payload when both succeed, the raw bytes, and the pack-reader
outcome when the entry is a pack file. -/
structure FileEntry where
  path : List (List Nat)
  isDir : Bool
  walkErr : Bool
  readErr : Bool
  zlibErr : Bool
  data : List Nat
  raw : List Nat
  packErr : Bool
  packObjs : List PackedObj
  deriving DecidableEq, Repr

/-- A filesystem: all walkable entries, in walk order. -/
abbrev Store := List FileEntry

/-- utils.go getBytes on an entry: log.Fatal on an unreadable file or a
corrupt compressed stream is `none`; otherwise the (decompressed) bytes. -/
def getBytes (e : FileEntry) (compressed : Bool) : Option (List Nat) :=
  if e.readErr then none
  else if compressed then
    if e.zlibErr then none else some e.data
  else some e.raw

/-- filepath.Base on a component path (last component; dot for the empty
path, as Go returns for an empty string). -/
def baseOfPath (path : List (List Nat)) : List Nat :=
  match path.reverse with
  | b :: _ => b
  | [] => [46]

/-- Is a byte a hex digit (the character class of the scan's regexp). -/
def isHexByte (b : Nat) : Bool :=
  (48 ≤ b && b ≤ 57) || (97 ≤ b && b ≤ 102) || (65 ≤ b && b ≤ 70)

/-- regexp ^[a-fA-F0-9]+$ on a byte string. -/
def isHexName (s : List Nat) : Bool :=
  !s.isEmpty && s.all isHexByte

/-- filepath.Ext on a component: the suffix starting at the final dot of
the last component, empty when it has no dot. -/
def extOf (s : List Nat) : List Nat :=
  let tailAfterDot := (s.reverse.takeWhile (· ≠ 46)).reverse
  if tailAfterDot.length = s.length then [] else 46 :: tailAfterDot

/-- The pack extension bytes. -/
def packExt : List Nat := [46, 112, 97, 99, 107]

/-- git_tools.go GetPackedObjects: log.Fatal when opening or verifying the
pack fails; otherwise one Object per packed object, named and located by
the packed name, sized by strconv.Itoa. -/
def getPackedObjects (e : FileEntry) : Option (List Object) :=
  if e.packErr then none
  else some (e.packObjs.map
    (fun po => ⟨po.ptype, itoa po.psize, po.pname, po.pname, po.pdata⟩))

/-- The object map, keyed by object name.  Insertion replaces an existing
key, as for a Go map; the list keeps insertion order as one linearization
of Go's unordered map. -/
abbrev ObjMap := List (List Nat × Object)

/-- Go map assignment m[k] = v. -/
def mapSet (m : ObjMap) (k : List Nat) (v : Object) : ObjMap :=
  if m.any (fun p => p.1 = k) then
    m.map (fun p => if p.1 = k then (k, v) else p)
  else m ++ [(k, v)]

/-- Go map read m[k] (comma-ok form): the stored object, if any. -/
def mapGet (m : ObjMap) (k : List Nat) : Option Object :=
  (m.find? (fun p => p.1 = k)).map (fun p => p.2)

/-- NewObject on a store entry: getBytes with compression, then decode. -/
def newObjectEntry (e : FileEntry) : Option Object :=
  (getBytes e true).bind (fun data => newObjectData e.path data)

/-- The WalkDir callback body of git_tools.go GetObjects, for one entry
over the accumulated map; `none` models log.Fatal (walk error, unreadable
or corrupt object file, decode panic, pack failure). -/
def getObjectsStep (m : ObjMap) (e : FileEntry) : Option ObjMap :=
  if e.walkErr then none
  else if !e.isDir && isHexName (baseOfPath e.path) then
    (newObjectEntry e).map (fun obj => mapSet m obj.name obj)
  else if extOf (baseOfPath e.path) = packExt then
    (getPackedObjects e).map (fun objs =>
      objs.foldl (fun acc obj => mapSet acc obj.name obj) m)
  else some m

/-- The entries WalkDir visits when rooted at `root`: those whose path has
`root` as a prefix, in store order. -/
def walkFrom (root : List (List Nat)) (fs : Store) : List FileEntry :=
  fs.filter (fun e => root.isPrefixOf e.path)

/-- git_tools.go GetObjects: walk the given directory and accumulate the
object map; `none` models a log.Fatal during the scan. -/
def getObjects (objDir : List (List Nat)) (fs : Store) : Option ObjMap :=
  (walkFrom objDir fs).foldlM getObjectsStep []

/-- The .git path component. -/
def gitComp : List Nat := [46, 103, 105, 116]

/-- The objects path component. -/
def objectsComp : List Nat := [111, 98, 106, 101, 99, 116, 115]

/-- git_tools.go gitDir on a component path. -/
def gitDirOf (location : List (List Nat)) : List (List Nat) :=
  location ++ [gitComp]

/-- Repo from git_types.go / part_004. -/
structure Repo where
  location : List (List Nat)
  objects : ObjMap
  checksum : List Nat
  deriving DecidableEq, Repr

/-- part_004 NewRepo: scan gitDir(location)/objects and record the store
fingerprint (hashdir is the environment; its value is the `dirHash`
argument, its log.Fatal is not reachable when a hash is supplied). -/
def newRepo (location : List (List Nat)) (fs : Store) (dirHash : List Nat) :
    Option Repo :=
  (getObjects (gitDirOf location ++ [objectsComp]) fs).map
    (fun objects => ⟨location, objects, dirHash⟩)

/-- part_004 / git_types.go refresh: rescan rooted at r.Location — not at
gitDir(r.Location)/objects — and replace the object map wholesale. -/
def refresh (r : Repo) (fs : Store) : Option Repo :=
  (getObjects r.location fs).map (fun objects => { r with objects })

/-- git_types.go changed: recompute the directory hash (supplied by the
environment), compare with the stored checksum, and on a difference store
the new hash and report true. -/
def changed (dirHash : List Nat) (r : Repo) : Bool × Repo :=
  if r.checksum ≠ dirHash then (true, { r with checksum := dirHash })
  else (false, r)

/-- git_types.go getObject: comma-ok map lookup, error when absent. -/
def getObject (r : Repo) (name : List Nat) : Option Object :=
  mapGet r.objects name

/-- A sequence of changed calls, one per supplied fingerprint, returning
the reported booleans and the final repository state. -/
def changedCalls (r : Repo) : List (List Nat) → List Bool × Repo
  | [] => ([], r)
  | h :: rest =>
    let (b, r') := changed h r
    let (bs, r'') := changedCalls r' rest
    (b :: bs, r'')

/-! ## Graph builder (part_004 GetCommits, FindFirstInstanceOfBlob,
GetTreeCommit, Head, Branches, ToJsonGraph)

The HEAD file content and the branch ref files (name, content) are
parameters: they are the environment the Go code reads with os.ReadFile.
The object fan-out runs on a worker pool whose channel order is
nondeterministic; the fold below is one linearization of it, which is
enough for the membership and fatality facts proved here.  The node
payload marshalled to JSON is not carried — only the node name, type and
the auxiliary commit reference — but every parse the marshalling performs
(and every panic it can raise) is preserved by toJsonCheck. -/

/-- Tag bytes for the word ref. -/
def refTag : List Nat := [114, 101, 102]

/-- Tag bytes for the word detached. -/
def detachedTag : List Nat := [100, 101, 116, 97, 99, 104, 101, 100]

/-- Tag bytes for the word HEAD. -/
def headTag : List Nat := [72, 69, 65, 68]

/-- A graph node: name, type, and the auxiliary commit reference carried
by tree and blob nodes. -/
structure GNode where
  name : List Nat
  ntype : List Nat
  aux : Option (List Nat)
  deriving DecidableEq, Repr

/-- part_004 Head, after the HEAD file was read: split on the colon byte;
two or more pieces give a symbolic head (both sides trimmed), otherwise a
detached head. -/
def parseHead (content : List Nat) : Head :=
  let arr := splitByte 58 content
  match arr with
  | a :: b :: _ => ⟨trimSpace a, trimSpace b⟩
  | _ => ⟨detachedTag, trimSpace (arr.headD [])⟩

/-- filepath.Base on a slash-separated byte string, as Go computes it:
dot for the empty string, slash when only slashes remain, otherwise the
last component after stripping trailing slashes. -/
def baseStr (s : List Nat) : List Nat :=
  if s.isEmpty then [46]
  else
    let s1 := (s.reverse.dropWhile (· == 47)).reverse
    if s1.isEmpty then [47]
    else (s1.reverse.takeWhile (· ≠ 47)).reverse

/-- part_004 Branches via NewBranch: one branch per ref file, named by the
file base name, pointing at the file content trimmed of newlines. -/
def branchesOf (branchFiles : List (List Nat × List Nat)) : List Branch :=
  branchFiles.map (fun p => ⟨p.1, trimNL p.2⟩)

/-- Insert into a list sorted by ascending commit time. -/
def insertByTime (p : Object × Int) :
    List (Object × Int) → List (Object × Int)
  | [] => [p]
  | q :: rest => if p.2 < q.2 then p :: q :: rest else q :: insertByTime p rest

/-- Sort object/time pairs by ascending commit time. -/
def sortByTime (l : List (Object × Int)) : List (Object × Int) :=
  l.foldr insertByTime []

/-- part_004 GetCommits with ascending order: collect the commit-typed
objects, then sort.Slice them by the CommitTime of ParseCommit.  The
comparator panics on an unparseable commit, so with two or more commits
every commit content must parse (`none` otherwise); with at most one
commit the comparator never runs.  sort.Slice is unstable, so its result
is some ascending order; the insertion sort here is one such order. -/
def getCommitsList (vals : List Object) : Option (List Object) :=
  let cs := vals.filter (fun o => o.type_ == commitTag)
  if cs.length ≤ 1 then some cs
  else
    (cs.mapM (fun o => (parseCommit o.content).map (fun c => (o, c.commitTime)))).map
      (fun pairs => (sortByTime pairs).map (fun p => p.1))

/-- The loop of part_004 GetTreeCommit: the name of the first commit in
the list whose tree is this object, empty when none matches; parsing a
commit can abort. -/
def treeCommitSearch (obj : Object) : List Object → Option (List Nat)
  | [] => some []
  | o :: rest =>
    match parseCommit o.content with
    | none => none
    | some c =>
      if c.tree = obj.name then some o.name else treeCommitSearch obj rest

/-- part_004 GetTreeCommit: look the name up (a missing key panics on the
nil Type access), and when it is a tree run the owning-commit search,
empty otherwise. -/
def getTreeCommit (m : ObjMap) (name : List Nat) (commits : List Object) :
    Option (List Nat) :=
  match mapGet m name with
  | none => none
  | some obj =>
    if obj.type_ == treeTag then treeCommitSearch obj commits
    else some []

/-- part_004 FindFirstInstanceOfBlob: walk the commits in order, parse
each commit's tree from the object map — a tree id absent from the map is
a nil-pointer dereference inside ParseTree, modelled as the outer `none` —
and return the first commit whose tree lists the blob, with the parsed
blob.  The inner `none` is the non-fatal could-not-find error return. -/
def findFirstInstanceOfBlob (m : ObjMap) (name : List Nat) :
    List Object → Option (Option (Object × Blob))
  | [] => some none
  | c :: rest =>
    match parseCommit c.content with
    | none => none
    | some pc =>
      match mapGet m pc.tree with
      | none => none
      | some tobj =>
        match parseTree tobj.content with
        | none => none
        | some entries =>
          if entries.any (fun e => e.hash == name) then
            match mapGet m name with
            | none => none
            | some bobj => (parseBlob bobj).map (fun b => some (c, b))
          else findFirstInstanceOfBlob m name rest

/-- part_004 Object.ToJson, reduced to its fatality behaviour: marshalling
a tree, commit or blob first parses it (panics and log.Fatal are `none`);
other types marshal a constant document. -/
def toJsonCheck (obj : Object) : Option Unit :=
  if obj.type_ == treeTag then (parseTree obj.content).map (fun _ => ())
  else if obj.type_ == commitTag then (parseCommit obj.content).map (fun _ => ())
  else if obj.type_ == blobTag then (parseBlob obj).map (fun _ => ())
  else some ()

/-- The getNodesAndEdges closure of part_004 ToJsonGraph, for one object:
ToJson first (its panics abort), then the per-type node and edges — a
commit yields edges to its parents and its tree, a tree edges to its
entry hashes and the owning-commit auxiliary, a blob its first-commit
auxiliary via FindFirstInstanceOfBlob. -/
def getNodesAndEdges (m : ObjMap) (commits : List Object) (obj : Object) :
    Option (List GNode × List Edge) :=
  match toJsonCheck obj with
  | none => none
  | some _ =>
    if obj.type_ == commitTag then
      (parseCommit obj.content).map (fun commit =>
        ([⟨obj.name, obj.type_, none⟩],
         commit.parents.map (fun p => ⟨obj.name, p⟩) ++ [⟨obj.name, commit.tree⟩]))
    else if obj.type_ == treeTag then
      (parseTree obj.content).bind (fun entries =>
        (getTreeCommit m obj.name commits).map (fun tc =>
          ([⟨obj.name, obj.type_, some tc⟩],
           entries.map (fun e => ⟨obj.name, e.hash⟩))))
    else if obj.type_ == blobTag then
      (findFirstInstanceOfBlob m obj.name commits).map (fun res =>
        let firstCommitRef := match res with
          | some (c, _) => c.name
          | none => []
        ([⟨obj.name, obj.type_, some firstCommitRef⟩], []))
    else
      some ([⟨obj.name, obj.type_, none⟩], [])

/-- Fold the per-object contributions together, in object-map order. -/
def buildAll (m : ObjMap) (commits : List Object) :
    List Object → Option (List GNode × List Edge)
  | [] => some ([], [])
  | o :: rest =>
    match getNodesAndEdges m commits o with
    | none => none
    | some (ns, es) =>
      (buildAll m commits rest).map (fun p => (ns ++ p.1, es ++ p.2))

/-- part_004 ToJsonGraph: fan out over all objects, then append the HEAD
node, the HEAD edge (to the resolved object, else to the branch base name
when such a branch exists, else no edge), and one node and edge per
branch.  `none` models any fatal error during the build. -/
def toJsonGraph (r : Repo) (headContent : List Nat)
    (branchFiles : List (List Nat × List Nat)) :
    Option (List GNode × List Edge) :=
  let vals := r.objects.map (fun p => p.2)
  match getCommitsList vals with
  | none => none
  | some commits =>
    match buildAll r.objects commits vals with
    | none => none
    | some (nodes, edges) =>
      let head := parseHead headContent
      let branches := branchesOf branchFiles
      let headEdges :=
        match mapGet r.objects head.value with
        | some headObj => [Edge.mk headTag headObj.name]
        | none =>
          if branches.any (fun b => b.name = baseStr head.value) then
            [Edge.mk headTag (baseStr head.value)]
          else []
      some (nodes ++ [⟨headTag, refTag, none⟩] ++
              branches.map (fun b => ⟨b.name, refTag, none⟩),
            edges ++ headEdges ++ branches.map (fun b => ⟨b.name, b.commit⟩))

/-! ## Change-detector facts (claim C9) -/

/-- Same fingerprint as stored: every call reports false and keeps state. -/
lemma changedCalls_same (n : Nat) (r : Repo) (f : List Nat)
    (h : r.checksum = f) :
    (changedCalls r (List.replicate n f)).1 = List.replicate n false ∧
    (changedCalls r (List.replicate n f)).2 = r := by
  induction n generalizing r with
  | zero => simp [changedCalls]
  | succ k ih =>
    have hc : changed f r = (false, r) := by
      simp [changed, h]
    simpa [List.replicate_succ, changedCalls, hc] using ih r h

/-- C9: with the stored fingerprint unchanged every changed call reports
false; after a mutation that makes the recomputed fingerprint differ from
the stored one, the first call reports true and updates the stored
fingerprint, and every later call with that fingerprint reports false. -/
theorem changed_reports_mutation_once (r : Repo) (f : List Nat) (n : Nat) :
    (r.checksum = f →
      (changedCalls r (List.replicate (n + 1) f)).1 =
        List.replicate (n + 1) false) ∧
    (r.checksum ≠ f →
      (changedCalls r (List.replicate (n + 1) f)).1 =
        true :: List.replicate n false ∧
      (changed f r).2.checksum = f) := by
  constructor
  · intro h
    exact (changedCalls_same (n + 1) r f h).1
  · intro h
    have hc : changed f r = (true, { r with checksum := f }) := by
      simp [changed, h]
    refine ⟨?_, by simp [hc]⟩
    have := changedCalls_same n { r with checksum := f } f rfl
    simp [List.replicate_succ, changedCalls, hc, this.1]

/-- Witness for C9 at concrete states: an unchanged store yields three
false reports; a changed fingerprint yields one true then false. -/
theorem changed_reports_mutation_once_witness :
    (changedCalls ⟨[], [], [97]⟩ (List.replicate 3 [97])).1 =
      List.replicate 3 false ∧
    (changedCalls ⟨[], [], [97]⟩ (List.replicate 3 [98])).1 =
      true :: List.replicate 2 false :=
  ⟨(changed_reports_mutation_once ⟨[], [], [97]⟩ [97] 2).1 rfl,
   ((changed_reports_mutation_once ⟨[], [], [97]⟩ [98] 2).2 (by decide)).1⟩

/-! ## Key/name invariant (claim C10) -/

/-- Every pair of the object map stores an object named by its key. -/
def pairInv (m : ObjMap) : Prop :=
  ∀ p ∈ m, p.2.name = p.1

/-- A lookup that succeeds returns an object whose name is the key. -/
lemma mapGet_name_of_pairInv {m : ObjMap} (h : pairInv m)
    {k : List Nat} {o : Object} (hg : mapGet m k = some o) : o.name = k := by
  unfold mapGet at hg
  cases hf : m.find? (fun p => p.1 = k) with
  | none => simp [hf] at hg
  | some q =>
    simp only [hf, Option.map_some'] at hg
    have hq : q.1 = k := by
      have := List.find?_some hf
      simpa using this
    have hm : q ∈ m := List.mem_of_find?_eq_some hf
    have : q.2 = o := by exact Option.some.inj hg
    rw [← this, h q hm, hq]

/-- Go map assignment with the object's own name as key keeps the
invariant. -/
lemma pairInv_mapSet {m : ObjMap} (h : pairInv m) (v : Object) :
    pairInv (mapSet m v.name v) := by
  intro p hp
  unfold mapSet at hp
  split at hp
  · rcases List.mem_map.mp hp with ⟨q, hq, hqe⟩
    by_cases hk : q.1 = v.name
    · simp [hk] at hqe
      rw [← hqe]
    · simp [hk] at hqe
      rw [← hqe]; exact h q hq
  · rcases List.mem_append.mp hp with hin | hin
    · exact h p hin
    · simp at hin
      rw [hin]

/-- A fold of keyed-by-name insertions keeps the invariant. -/
lemma pairInv_foldl_mapSet {l : List Object} {m : ObjMap} (h : pairInv m) :
    pairInv (l.foldl (fun acc obj => mapSet acc obj.name obj) m) := by
  induction l generalizing m with
  | nil => exact h
  | cons o rest ih => exact ih (pairInv_mapSet h o)

/-- One scan step keeps the invariant. -/
lemma pairInv_getObjectsStep {m m' : ObjMap} {e : FileEntry}
    (h : pairInv m) (hs : getObjectsStep m e = some m') : pairInv m' := by
  unfold getObjectsStep at hs
  split at hs
  · exact absurd hs (by simp)
  · split at hs
    · cases hn : newObjectEntry e with
      | none => rw [hn] at hs; exact absurd hs (by simp)
      | some obj =>
        rw [hn] at hs
        simp only [Option.map_some'] at hs
        have := pairInv_mapSet h obj
        rwa [← Option.some.injEq m' _ |>.mp hs.symm] at this
    · split at hs
      · cases hp : getPackedObjects e with
        | none => rw [hp] at hs; exact absurd hs (by simp)
        | some objs =>
          rw [hp] at hs
          simp only [Option.map_some'] at hs
          have := pairInv_foldl_mapSet (l := objs) h
          rwa [← Option.some.injEq m' _ |>.mp hs.symm] at this
      · cases hs
        exact h

/-- The scan fold keeps the invariant. -/
lemma pairInv_foldlM {es : List FileEntry} {m m' : ObjMap}
    (h : pairInv m) (hs : es.foldlM getObjectsStep m = some m') :
    pairInv m' := by
  induction es generalizing m with
  | nil => cases hs; exact h
  | cons e rest ih =>
    rw [List.foldlM_cons] at hs
    cases hstep : getObjectsStep m e with
    | none => rw [hstep] at hs; exact absurd hs (by simp)
    | some m1 =>
      rw [hstep] at hs
      exact ih (pairInv_getObjectsStep h hstep) hs

/-- C10: every object map the scan builds, over loose and packed sources
alike, maps each key to an object whose Name equals that key; the
invariant carries over newRepo and refresh, is untouched by changed, and
makes every successful getObject lookup return an object named by the
requested id. -/
theorem objects_keyed_by_name :
    (∀ (root : List (List Nat)) (fs : Store) (m : ObjMap),
      getObjects root fs = some m →
      ∀ k o, mapGet m k = some o → o.name = k) ∧
    (∀ (loc : List (List Nat)) (fs : Store) (dirHash : List Nat) (r : Repo),
      newRepo loc fs dirHash = some r →
      ∀ k o, mapGet r.objects k = some o → o.name = k) ∧
    (∀ (rr : Repo) (fs : Store) (r' : Repo),
      refresh rr fs = some r' →
      ∀ k o, mapGet r'.objects k = some o → o.name = k) ∧
    (∀ (f : List Nat) (rr : Repo), (changed f rr).2.objects = rr.objects) ∧
    (∀ (rr : Repo) (k : List Nat) (o : Object),
      pairInv rr.objects → getObject rr k = some o → o.name = k) := by
  refine ⟨?_, ?_, ?_, ?_, ?_⟩
  · intro root fs m hm k o hg
    have : pairInv m := pairInv_foldlM (by intro p hp; cases hp) hm
    exact mapGet_name_of_pairInv this hg
  · intro loc fs dirHash r hr k o hg
    unfold newRepo at hr
    cases hm : getObjects (gitDirOf loc ++ [objectsComp]) fs with
    | none => rw [hm] at hr; exact absurd hr (by simp)
    | some m0 =>
      rw [hm] at hr
      have hinv : pairInv m0 := pairInv_foldlM (by intro p hp; cases hp) hm
      cases hr
      exact mapGet_name_of_pairInv hinv hg
  · intro rr fs r' hr k o hg
    unfold refresh at hr
    cases hm : getObjects rr.location fs with
    | none => rw [hm] at hr; exact absurd hr (by simp)
    | some m0 =>
      rw [hm] at hr
      have hinv : pairInv m0 := pairInv_foldlM (by intro p hp; cases hp) hm
      cases hr
      exact mapGet_name_of_pairInv hinv hg
  · intro f rr
    unfold changed
    split <;> rfl
  · intro rr k o hinv hg
    exact mapGet_name_of_pairInv hinv hg

/-- A store with one loose object file o/ab/cd holding a small blob and
one pack file o/p.pack holding one packed object named ef. -/
def c10fs : Store :=
  [⟨[[111]], true, false, false, false, [], [], false, []⟩,
   ⟨[[111], [97, 98]], true, false, false, false, [], [], false, []⟩,
   ⟨[[111], [97, 98], [99, 100]], false, false, false, false,
     [98, 108, 111, 98, 32, 49, 0, 120], [], false, []⟩,
   ⟨[[111], [112, 46, 112, 97, 99, 107]], false, false, false, false,
     [], [], false, [⟨blobTag, 1, [101, 102], [120]⟩]⟩]

/-- The map the scan builds over that store. -/
def c10map : ObjMap :=
  [([97, 98, 99, 100],
    ⟨blobTag, [49], [111, 47, 97, 98, 47, 99, 100], [97, 98, 99, 100], [120]⟩),
   ([101, 102], ⟨blobTag, [49], [101, 102], [101, 102], [120]⟩)]

/-- Witness for C10: on the concrete store, both the loose and the packed
entry of the scanned map are named by their keys. -/
theorem objects_keyed_by_name_witness :
    (⟨blobTag, [49], [111, 47, 97, 98, 47, 99, 100], [97, 98, 99, 100],
      [120]⟩ : Object).name = [97, 98, 99, 100] ∧
    (⟨blobTag, [49], [101, 102], [101, 102], [120]⟩ : Object).name =
      [101, 102] :=
  ⟨objects_keyed_by_name.1 [[111]] c10fs c10map (by decide)
      [97, 98, 99, 100] _ (by decide),
   objects_keyed_by_name.1 [[111]] c10fs c10map (by decide)
      [101, 102] _ (by decide)⟩

/-! ## Object decoder characterization (claim C8) -/

/-- findAux on a list whose first occurrence of the match byte follows a
clean prefix reports exactly that position. -/
lemma findAux_append {m : Nat} (pre rest : List Nat) (k : Nat)
    (h : m ∉ pre) : findAux m (pre ++ m :: rest) k = some (k + pre.length) := by
  induction pre generalizing k with
  | nil => simp [findAux]
  | cons b bs ih =>
    have hb : ¬ b = m := by
      intro hbm
      exact h (hbm ▸ List.mem_cons_self b bs)
    have hbs : m ∉ bs := fun hm => h (List.mem_cons_of_mem b hm)
    simp only [List.cons_append, findAux, List.length_cons, List.append_eq]
    rw [if_neg hb, ih (k + 1) hbs]
    congr 1
    omega

/-- Leading spaces do not change a trimmed field. -/
lemma trimSpace_cons_space (s : List Nat) :
    trimSpace (32 :: s) = trimSpace s := by
  simp [trimSpace, List.dropWhile_cons, isWhite]

/-- C8: decoding a raw payload that is a space-free type field, the first
SPACE, a NUL-free size field, the first NUL after the space, and arbitrary
trailing bytes yields exactly the trimmed type, the trimmed size, and the
bytes after the NUL as content; in particular the payload blob 5 NUL hello
decodes to kind blob, declared size 5, content hello. -/
theorem decode_header_fields (path : List (List Nat)) (pre mid post : List Nat)
    (h32 : 32 ∉ pre) (h0 : 0 ∉ mid) :
    newObjectData path (pre ++ [32] ++ mid ++ [0] ++ post) =
      some ⟨trimSpace pre, trimSpace mid, joinPath path,
            getObjectName path, post⟩ ∧
    newObjectData [[97, 98], [99, 100]]
        ([98, 108, 111, 98, 32, 53, 0] ++ [104, 101, 108, 108, 111]) =
      some ⟨blobTag, [53], [97, 98, 47, 99, 100], [97, 98, 99, 100],
            [104, 101, 108, 108, 111]⟩ := by
  constructor
  · set data : List Nat := pre ++ [32] ++ mid ++ [0] ++ post with hdata
    have hshape : data = pre ++ 32 :: (mid ++ 0 :: post) := by
      simp [hdata]
    have hfind1 : findFirstMatch space 0 data = some pre.length := by
      unfold findFirstMatch
      rw [List.drop_zero, hshape]
      simpa using findAux_append pre (mid ++ 0 :: post) 0 h32
    have htype : getType data = some (trimSpace pre, pre.length) := by
      unfold getType
      rw [hfind1]
      have : goSlice data 0 pre.length = pre := by
        unfold goSlice
        rw [List.drop_zero, hshape, Nat.sub_zero]
        exact List.take_left pre _
      simp [this]
    have hdrop1 : data.drop (pre.length + 1) = mid ++ 0 :: post := by
      have : data = (pre ++ [32]) ++ (mid ++ 0 :: post) := by simp [hdata]
      rw [this]
      have hl : (pre ++ [32]).length = pre.length + 1 := by simp
      rw [← hl]
      exact List.drop_left _ _
    have hfind2 : findFirstMatch nul (pre.length + 1) data =
        some (pre.length + 1 + mid.length) := by
      unfold findFirstMatch
      rw [hdrop1]
      simpa using findAux_append mid post (pre.length + 1) h0
    have hmidslice : goSlice data pre.length (pre.length + 1 + mid.length) =
        32 :: mid := by
      unfold goSlice
      have hd : data.drop pre.length = 32 :: (mid ++ 0 :: post) := by
        rw [hshape]
        exact List.drop_left pre (32 :: (mid ++ 0 :: post))
      rw [hd]
      have harith : pre.length + 1 + mid.length - pre.length = 1 + mid.length := by
        omega
      rw [harith]
      simp [List.take_cons, Nat.add_comm 1 mid.length]
    have hsize : getSize pre.length data =
        some (trimSpace mid, pre.length + 1 + mid.length + 1) := by
      unfold getSize
      rw [hfind2]
      simp [hmidslice, trimSpace_cons_space]
    have hcontent : data.drop (pre.length + 1 + mid.length + 1) = post := by
      have : data = (pre ++ [32] ++ mid ++ [0]) ++ post := by simp [hdata]
      rw [this]
      have hl : (pre ++ [32] ++ mid ++ [0]).length =
          pre.length + 1 + mid.length + 1 := by simp; omega
      rw [← hl]
      exact List.drop_left _ _
    unfold newObjectData
    rw [htype]
    dsimp only
    rw [hsize]
    dsimp only
    rw [hcontent]
  · decide

/-! ## Commit parser bounds and parent collection (claims C4, C5) -/

/-- A well-formed first commit header line: tree, space, forty hex
characters, newline — the 46 bytes ParseCommit slices off. -/
def treeLine : List Nat := treeTag ++ [32] ++ List.replicate 40 97 ++ [10]

/-- A minimal author header line: author A <a> 0 x. -/
def authorLine : List Nat := authorTag ++ [32, 65, 32, 60, 97, 62, 32, 48, 32, 120]

/-- A minimal committer header line: committer C <c> 0 x. -/
def committerLine : List Nat :=
  committerTag ++ [32, 67, 32, 60, 99, 62, 32, 48, 32, 120]

/-- A successful bounds-checked slice is the unchecked one. -/
lemma slice?_eq {s v : List Nat} {a b : Nat} (h : slice? s a b = some v) :
    v = goSlice s a b := by
  unfold slice? at h
  split at h
  · exact (Option.some.inj h).symm
  · cases h

/-- C4 counterexample: a commit content whose headers are well formed
except for a 10-byte parent line; ParseCommit slices bytes 7..47 of it,
out of bounds, so the parse aborts (the claim predicts an in-bounds skip
instead). -/
theorem parseCommit_oob_on_short_parent_line :
    parseCommit (treeLine ++ parentTag ++ [32, 97, 98, 99] ++ [10, 10, 109, 10]) =
      none := by decide

/-- C4 amended: lines shorter than 9 bytes are skipped without any access,
but the parser is not in bounds for arbitrary longer lines — any line of 9
to 46 bytes whose first six bytes read parent makes ParseCommit access
bytes out of the line's bounds (modelled as the aborting none). -/
theorem parseCommit_line_bounds (st : CommitState) (line : List Nat) :
    (line.length < 9 → processLine st line = some st) ∧
    (9 ≤ line.length → line.length < 47 → goSlice line 0 6 = parentTag →
      processLine st line = none) := by
  constructor
  · intro h
    simp [processLine, h]
  · intro h9 h47 hp
    have hn : ¬ line.length < 9 := by omega
    unfold processLine
    rw [if_neg hn, if_pos hp]
    have : slice? line 7 47 = none := by
      unfold slice?
      rw [if_neg (by omega)]
    rw [this]
    rfl

/-- Witness for C4 amended: a 1-byte line is skipped; a 9-byte parent line
aborts. -/
theorem parseCommit_line_bounds_witness :
    processLine initCommitState [97] = some initCommitState ∧
    processLine initCommitState (parentTag ++ [32, 97, 98]) = none :=
  ⟨(parseCommit_line_bounds initCommitState [97]).1 (by decide),
   (parseCommit_line_bounds initCommitState (parentTag ++ [32, 97, 98])).2
     (by decide) (by decide) (by decide)⟩

/-- Parent header lines in the specification's sense: lines before the
first blank line of the content that carry the parent prefix. -/
def parentHeaderCount (content : List Nat) : Nat :=
  (((splitByte 10 content).takeWhile (fun l => !l.isEmpty)).filter
    (fun l => (parentTag ++ [32]).isPrefixOf l)).length

/-- The lines ParseCommit's loop actually treats as parent lines: at least
9 bytes with parent as the first six. -/
def isParentCodeLine (l : List Nat) : Bool :=
  decide (9 ≤ l.length) && decide (goSlice l 0 6 = parentTag)

/-- What the loop extracts from each such line. -/
def parentLineSlices (content : List Nat) : List (List Nat) :=
  ((splitByte 10 (content.drop 46)).filter isParentCodeLine).map
    (fun l => goSlice l 7 47)

/-- A commit content with no parent header line whose message consists of
one parent-shaped line. -/
def c5input : List Nat :=
  treeLine ++ authorLine ++ [10] ++ committerLine ++ [10, 10] ++
    parentTag ++ [32] ++ List.replicate 40 98 ++ [10]

/-- C5 counterexample: that content has zero parent header lines, yet
ParseCommit reports one parent — its loop also scans the message lines. -/
theorem parseCommit_counts_message_parent_line :
    (parseCommit c5input).map (fun c => c.parents.length) = some 1 ∧
    parentHeaderCount c5input = 0 := by decide

/-- A line the loop does not treat as a parent line leaves the collected
parents unchanged. -/
lemma processLine_parents_other {st st1 : CommitState} {l : List Nat}
    (h : processLine st l = some st1) (hcond : isParentCodeLine l = false) :
    st1.parents = st.parents := by
  unfold processLine at h
  by_cases h9 : l.length < 9
  · rw [if_pos h9] at h
    cases h
    rfl
  · rw [if_neg h9] at h
    have hp : ¬ goSlice l 0 6 = parentTag := by
      intro hc
      unfold isParentCodeLine at hcond
      simp [hc] at hcond
      omega
    rw [if_neg hp] at h
    split at h
    · cases hidx : indexOfByte 60 l with
      | none => simp only [hidx] at h; cases h
      | some nameEnd =>
        simp only [hidx] at h
        cases hsl : slice? l 7 nameEnd with
        | none => simp only [hsl] at h; cases h
        | some nm =>
          simp only [hsl] at h
          cases hget : (splitByte 32 (l.drop nameEnd)).get? 1 with
          | none => simp only [hget] at h; cases h
          | some ts =>
            simp only [hget] at h
            cases ht : getTime ts with
            | none => simp only [ht] at h; cases h
            | some t =>
              simp only [ht, Option.some.injEq] at h
              rw [← h]
    · split at h
      · cases hidx : indexOfByte 60 l with
        | none => simp only [hidx] at h; cases h
        | some nameEnd =>
          simp only [hidx] at h
          cases hsl : slice? l 10 nameEnd with
          | none => simp only [hsl] at h; cases h
          | some nm =>
            simp only [hsl] at h
            cases hget : (splitByte 32 (l.drop nameEnd)).get? 1 with
            | none => simp only [hget] at h; cases h
            | some ts =>
              simp only [hget] at h
              cases ht : getTime ts with
              | none => simp only [ht] at h; cases h
              | some t =>
                simp only [ht, Option.some.injEq] at h
                rw [← h]
      · cases h
        rfl

/-- A parent line appends exactly its 7..47 slice. -/
lemma processLine_parents_parent {st st1 : CommitState} {l : List Nat}
    (h : processLine st l = some st1) (h9 : ¬ l.length < 9)
    (hp : goSlice l 0 6 = parentTag) :
    st1.parents = st.parents ++ [goSlice l 7 47] := by
  unfold processLine at h
  rw [if_neg h9, if_pos hp] at h
  cases hsl : slice? l 7 47 with
  | none => rw [hsl] at h; cases h
  | some s =>
    rw [hsl] at h
    cases h
    rw [slice?_eq hsl]

/-- Folding the line loop collects, in order, the 7..47 slices of exactly
the parent-shaped lines. -/
lemma foldlM_processLine_parents (lines : List (List Nat)) :
    ∀ st st', lines.foldlM processLine st = some st' →
      st'.parents = st.parents ++
        (lines.filter isParentCodeLine).map (fun l => goSlice l 7 47) := by
  induction lines with
  | nil =>
    intro st st' h
    cases h
    simp
  | cons l rest ih =>
    intro st st' h
    rw [List.foldlM_cons] at h
    cases hstep : processLine st l with
    | none => rw [hstep] at h; cases h
    | some st1 =>
      rw [hstep] at h
      have hrest := ih st1 st' (by simpa using h)
      by_cases hcond : isParentCodeLine l = true
      · have h9 : ¬ l.length < 9 := by
          unfold isParentCodeLine at hcond
          simp at hcond
          omega
        have hp : goSlice l 0 6 = parentTag := by
          unfold isParentCodeLine at hcond
          simp at hcond
          exact hcond.2
        rw [hrest, processLine_parents_parent hstep h9 hp,
            List.filter_cons_of_pos hcond]
        simp
      · have hcf : isParentCodeLine l = false := by
          simpa using hcond
        rw [hrest, processLine_parents_other hstep hcf,
            List.filter_cons_of_neg (by simp [hcf])]

/-- C5 amended: the parents ParseCommit returns are, in order, the 7..47
slices of every line of the content past byte 46 — message lines included —
that is at least 9 bytes long and starts with the six bytes parent, and
the number of parents equals the number of such lines (which. as the
counterexample shows, can differ from the number of parent header
lines). -/
theorem parseCommit_parent_slices (content : List Nat) (c : Commit)
    (h : parseCommit content = some c) :
    c.parents = parentLineSlices content ∧
    c.parents.length =
      ((splitByte 10 (content.drop 46)).filter isParentCodeLine).length := by
  unfold parseCommit at h
  cases h5 : slice? content 5 45 with
  | none => simp only [h5] at h; cases h
  | some th =>
    simp only [h5] at h
    by_cases h46 : 46 ≤ content.length
    · rw [if_pos h46] at h
      cases hsp : split2NL (content.drop 46) with
      | nil => simp only [hsp] at h; cases h
      | cons p0 t =>
        cases t with
        | nil => simp only [hsp] at h; cases h
        | cons m t2 =>
          simp only [hsp] at h
          cases hfold : (splitByte 10 (content.drop 46)).foldlM processLine
              initCommitState with
          | none => simp only [hfold] at h; cases h
          | some st =>
            simp only [hfold, Option.some.injEq] at h
            rw [← h]
            have := foldlM_processLine_parents _ _ _ hfold
            rw [initCommitState] at this
            simp only [List.nil_append] at this
            refine ⟨by simpa [parentLineSlices] using this, ?_⟩
            rw [this]
            simp [parentLineSlices]
    · rw [if_neg h46] at h
      cases h

/-- The commit value ParseCommit extracts from c5input. -/
def c5commit : Commit :=
  ⟨List.replicate 40 97, [List.replicate 40 98],
   ⟨[65, 32], [60, 97, 62]⟩, ⟨[67, 32], [60, 99, 62]⟩,
   parentTag ++ [32] ++ List.replicate 40 98, 0, 0⟩

/-- Witness for C5 amended at the concrete content. -/
theorem parseCommit_parent_slices_witness :
    c5commit.parents = parentLineSlices c5input ∧
    c5commit.parents.length =
      ((splitByte 10 (c5input.drop 46)).filter isParentCodeLine).length :=
  parseCommit_parent_slices c5input c5commit (by decide)

/-! ## Tree record round-trip (claim C7) -/

/-- Specification-side definition, from the spec's words: one on-disk tree
record is the mode, a space, the NUL-terminated name, and the 20 raw hash
bytes (the entry's hash field being their hex encoding). -/
def serializeEntry (e : TreeEntry) : List Nat :=
  e.mode ++ [32] ++ e.name ++ [0] ++ hexDecode e.hash

/-- Specification-side definition: a tree object's content is its records
in order. -/
def serializeTree (es : List TreeEntry) : List Nat :=
  es.flatMap serializeEntry

/-- Is a byte a lowercase hex digit. -/
def isLowerHexByte (b : Nat) : Bool :=
  (48 ≤ b && b ≤ 57) || (97 ≤ b && b ≤ 102)

/-- A well-formed tree entry: a git mode (five or six octal-digit bytes),
a name free of NUL and whitespace bytes, and a 40-byte lowercase-hex
hash. -/
def WFEntry (e : TreeEntry) : Prop :=
  (e.mode.length = 5 ∨ e.mode.length = 6) ∧
  (∀ b ∈ e.mode, 48 ≤ b ∧ b ≤ 55) ∧
  (∀ b ∈ e.name, b ≠ 0 ∧ isWhite b = false) ∧
  e.hash.length = 40 ∧ (∀ b ∈ e.hash, isLowerHexByte b = true)

instance : DecidablePred WFEntry := fun e => by
  unfold WFEntry
  infer_instance

/-- Bytes at or above the digit range are not whitespace. -/
lemma isWhite_false_of_ge {b : Nat} (h1 : 48 ≤ b) : isWhite b = false := by
  unfold isWhite
  simp only [Bool.or_eq_false_iff, beq_eq_false_iff_ne, ne_eq]
  omega

/-- Dropping leading whitespace from an all-non-white string is the
identity. -/
lemma dropWhile_white_eq_self {s : List Nat}
    (h : ∀ b ∈ s, isWhite b = false) : s.dropWhile isWhite = s := by
  cases s with
  | nil => rfl
  | cons a t => simp [List.dropWhile_cons, h a (by simp)]

/-- Trimming an all-non-white string is the identity. -/
lemma trimSpace_eq_self {s : List Nat}
    (h : ∀ b ∈ s, isWhite b = false) : trimSpace s = s := by
  unfold trimSpace
  rw [dropWhile_white_eq_self h,
      dropWhile_white_eq_self (by intro b hb; exact h b (List.mem_reverse.mp hb)),
      List.reverse_reverse]

/-- Trimming strips one trailing space from an all-non-white string. -/
lemma trimSpace_append_space {s : List Nat} (hne : s ≠ [])
    (h : ∀ b ∈ s, isWhite b = false) : trimSpace (s ++ [32]) = s := by
  unfold trimSpace
  have h1 : (s ++ [32]).dropWhile isWhite = s ++ [32] := by
    cases s with
    | nil => exact absurd rfl hne
    | cons a t => simp [List.dropWhile_cons, h a (by simp)]
  rw [h1, List.reverse_append]
  simp only [List.reverse_cons, List.reverse_nil, List.nil_append,
    List.singleton_append, List.dropWhile_cons]
  have : isWhite 32 = true := by decide
  rw [this]
  simp only [if_true]
  rw [dropWhile_white_eq_self
      (by intro b hb; exact h b (List.mem_reverse.mp hb)),
    List.reverse_reverse]

/-- The value of a lowercase hex digit byte is below 16. -/
lemma hexVal_lt {c : Nat} (h : isLowerHexByte c = true) : hexVal c < 16 := by
  unfold isLowerHexByte at h
  simp only [Bool.or_eq_true, Bool.and_eq_true, decide_eq_true_eq] at h
  rcases h with h | h
  · have hv : hexVal c = c - 48 := by
      unfold hexVal
      rw [if_pos (by omega)]
    omega
  · have hv : hexVal c = c - 87 := by
      unfold hexVal
      rw [if_neg (by omega), if_pos (by omega)]
    omega

/-- Encoding the value of a lowercase hex digit byte gives the byte back. -/
lemma hexDigit_hexVal {c : Nat} (h : isLowerHexByte c = true) :
    hexDigit (hexVal c) = c := by
  unfold isLowerHexByte at h
  simp only [Bool.or_eq_true, Bool.and_eq_true, decide_eq_true_eq] at h
  rcases h with h | h
  · have hv : hexVal c = c - 48 := by
      unfold hexVal
      rw [if_pos (by omega)]
    rw [hv]
    unfold hexDigit
    rw [if_pos (by omega)]
    omega
  · have hv : hexVal c = c - 87 := by
      unfold hexVal
      rw [if_neg (by omega), if_pos (by omega)]
    rw [hv]
    unfold hexDigit
    rw [if_neg (by omega)]
    omega

/-- Hex digits are never whitespace. -/
lemma isWhite_false_of_hex {c : Nat} (h : isLowerHexByte c = true) :
    isWhite c = false := by
  unfold isLowerHexByte at h
  simp only [Bool.or_eq_true, Bool.and_eq_true, decide_eq_true_eq] at h
  exact isWhite_false_of_ge (by omega)

/-- Re-encoding a decoded even-length lowercase-hex string is the
identity. -/
lemma hexEncode_hexDecode : ∀ (h : List Nat),
    (∀ b ∈ h, isLowerHexByte b = true) → h.length % 2 = 0 →
    hexEncode (hexDecode h) = h
  | [] => by
    intro _ _
    rfl
  | [c] => by
    intro _ hlen
    simp at hlen
  | c1 :: c2 :: rest => by
    intro hall hlen
    have h1 := hall c1 (by simp)
    have h2 := hall c2 (by simp)
    have hv1 := hexVal_lt h1
    have hv2 := hexVal_lt h2
    have ihr := hexEncode_hexDecode rest
      (fun b hb => hall b (by simp [hb]))
      (by simp only [List.length_cons] at hlen; omega)
    show hexEncode ((16 * hexVal c1 + hexVal c2) :: hexDecode rest) = _
    unfold hexEncode
    simp only [List.flatMap_cons]
    rw [show (16 * hexVal c1 + hexVal c2) / 16 = hexVal c1 by omega,
        show (16 * hexVal c1 + hexVal c2) % 16 = hexVal c2 by omega,
        hexDigit_hexVal h1, hexDigit_hexVal h2]
    unfold hexEncode at ihr
    rw [ihr]
    rfl

/-- A decoded hex string has half its length. -/
lemma hexDecode_length : ∀ (h : List Nat), (hexDecode h).length = h.length / 2
  | [] => by simp [hexDecode]
  | [_] => by simp [hexDecode]
  | _ :: _ :: rest => by
    show (hexDecode rest).length + 1 = _
    rw [hexDecode_length rest]
    simp only [List.length_cons]
    omega

/-- The name scan is invariant under shifting both the index and the
total length by the length of a dropped prefix. -/
lemma scanGo_shift (k t : Nat) (ht : 1 ≤ t) :
    ∀ (rest : List Nat) (i : Nat),
      scanGo rest (k + i) (k + t) = (scanGo rest i t).map (k + ·) := by
  intro rest
  induction rest with
  | nil =>
    intro i
    rfl
  | cons b tl ih =>
    intro i
    unfold scanGo
    have hcond : (b ≠ nul ∧ k + i < k + t - 1) ↔ (b ≠ nul ∧ i < t - 1) := by
      constructor
      · rintro ⟨hb, hlt⟩
        exact ⟨hb, by omega⟩
      · rintro ⟨hb, hlt⟩
        exact ⟨hb, by omega⟩
    by_cases hc : b ≠ nul ∧ i < t - 1
    · rw [if_pos (hcond.mpr hc), if_pos hc]
      have := ih (i + 1)
      rw [show k + i + 1 = k + (i + 1) by omega]
      exact this
    · rw [if_neg (fun hx => hc (hcond.mp hx)), if_neg hc]
      rfl

/-- The name scan over an appended buffer, started past the prefix, is
the shifted scan of the suffix. -/
lemma treeScan_shift (pre c : List Nat) (i : Nat) :
    treeScan (pre ++ c) (pre.length + i) =
      (treeScan c i).map (pre.length + ·) := by
  unfold treeScan
  have hdrop : (pre ++ c).drop (pre.length + i) = c.drop i := by
    rw [← List.drop_drop, List.drop_left]
  rw [hdrop, List.length_append]
  cases c with
  | nil => simp [scanGo]
  | cons x xs => exact scanGo_shift pre.length (x :: xs).length (by simp) _ i

/-- Checked slices shift across an appended prefix. -/
lemma slice?_shift (pre c : List Nat) (a b : Nat) :
    slice? (pre ++ c) (pre.length + a) (pre.length + b) = slice? c a b := by
  unfold slice?
  have hcond : (pre.length + a ≤ pre.length + b ∧
      pre.length + b ≤ (pre ++ c).length) ↔ (a ≤ b ∧ b ≤ c.length) := by
    rw [List.length_append]
    omega
  by_cases hc : a ≤ b ∧ b ≤ c.length
  · rw [if_pos (hcond.mpr hc), if_pos hc]
    unfold goSlice
    have hdrop : (pre ++ c).drop (pre.length + a) = c.drop a := by
      rw [← List.drop_drop, List.drop_left]
    rw [hdrop, show pre.length + b - (pre.length + a) = b - a by omega]
  · rw [if_neg (fun hx => hc (hcond.mp hx)), if_neg hc]

/-- The whole tree-parsing loop is invariant under shifting its indices
past an appended prefix: parsing the suffix alone gives the same result. -/
lemma parseTreeAux_shift (pre c : List Nat) :
    ∀ (fuel item start stop : Nat) (mode name : List Nat)
      (acc : List TreeEntry),
      parseTreeAux (pre ++ c) fuel item (pre.length + start)
        (pre.length + stop) mode name acc =
      parseTreeAux c fuel item start stop mode name acc := by
  intro fuel
  induction fuel with
  | zero =>
    intro item start stop mode name acc
    rw [parseTreeAux.eq_1, parseTreeAux.eq_1]
  | succ f ih =>
    intro item start stop mode name acc
    have hlen : (pre ++ c).length = pre.length + c.length :=
      List.length_append _ _
    by_cases h1 : item = 1
    · subst h1
      rw [parseTreeAux.eq_2, parseTreeAux.eq_2]
      by_cases hc : stop ≤ c.length
      · rw [if_pos (by rw [hlen]; omega), if_pos hc, slice?_shift]
        cases hs : slice? c start stop with
        | none => rfl
        | some modeRaw => exact ih 2 stop stop (trimSpace modeRaw) name acc
      · rw [if_neg (by rw [hlen]; omega), if_neg hc]
    · by_cases h2 : item = 2
      · subst h2
        rw [parseTreeAux.eq_3, parseTreeAux.eq_3]
        by_cases hc : stop ≤ c.length
        · rw [if_pos (by rw [hlen]; omega), if_pos hc, treeScan_shift]
          cases hsc : treeScan c start with
          | none => rfl
          | some i =>
            simp only [Option.map_some']
            rw [slice?_shift]
            cases hsl : slice? c start i with
            | none => rfl
            | some nameRaw =>
              rw [show pre.length + i + 1 = pre.length + (i + 1) by omega,
                  show pre.length + (i + 1) + 20 = pre.length + (i + 1 + 20)
                    by omega]
              exact ih 3 (i + 1) (i + 1 + 20) mode (trimSpace nameRaw) acc
        · rw [if_neg (by rw [hlen]; omega), if_neg hc]
      · by_cases h3 : item = 3
        · subst h3
          rw [parseTreeAux.eq_4, parseTreeAux.eq_4]
          by_cases hc : stop ≤ c.length
          · rw [if_pos (by rw [hlen]; omega), if_pos hc, slice?_shift]
            cases hs : slice? c start stop with
            | none => rfl
            | some hashRaw =>
              rw [show pre.length + stop + 6 = pre.length + (stop + 6)
                    by omega]
              exact ih 1 stop (stop + 6) mode name _
          · rw [if_neg (by rw [hlen]; omega), if_neg hc]
        · rw [parseTreeAux.eq_5 _ _ _ _ _ _ _ _
              (fun h => h1 h) (fun h => h2 h) (fun h => h3 h),
            parseTreeAux.eq_5 _ _ _ _ _ _ _ _
              (fun h => h1 h) (fun h => h2 h) (fun h => h3 h)]

/-- The name scan started before a NUL-free segment stops exactly at the
NUL, provided the NUL is not the last byte overall. -/
lemma scanGo_to_nul : ∀ (seg : List Nat) (i total : Nat) (tail : List Nat),
    (∀ b ∈ seg, b ≠ 0) → i + seg.length < total →
    scanGo (seg ++ 0 :: tail) i total = some (i + seg.length)
  | [], i, total, tail => by
    intro _ _
    simp only [List.nil_append, List.length_nil, Nat.add_zero]
    rw [scanGo.eq_2, if_neg (by simp [nul])]
  | b :: tl, i, total, tail => by
    intro hseg htot
    have hb : b ≠ 0 := hseg b (by simp)
    have hlt : i < total - 1 := by
      simp only [List.length_cons] at htot
      omega
    rw [List.cons_append, scanGo.eq_2, if_pos ⟨by simpa [nul] using hb, hlt⟩]
    rw [scanGo_to_nul tl (i + 1) total tail
      (fun x hx => hseg x (by simp [hx]))
      (by simp only [List.length_cons] at htot ⊢; omega)]
    simp only [List.length_cons]
    rw [show i + 1 + tl.length = i + (tl.length + 1) by omega]

/-- Parsing one serialized well-formed record consumes exactly that
record, emits exactly that entry, and moves on to the rest. -/
lemma parseTreeAux_record (e : TreeEntry) (he : WFEntry e) (rest : List Nat)
    (fuel : Nat) (m0 n0 : List Nat) (acc : List TreeEntry) :
    parseTreeAux (serializeEntry e ++ rest) (fuel + 3) 1 0 6 m0 n0 acc =
      parseTreeAux rest fuel 1 0 6 e.mode e.name (acc ++ [e]) := by
  obtain ⟨hmlen, hmode, hname, hhlen, hhex⟩ := he
  have hmw : ∀ b ∈ e.mode, isWhite b = false := by
    intro b hb
    exact isWhite_false_of_ge (hmode b hb).1
  have hnw : ∀ b ∈ e.name, isWhite b = false := fun b hb => (hname b hb).2
  have hnz : ∀ b ∈ e.name, b ≠ 0 := fun b hb => (hname b hb).1
  have hhd : (hexDecode e.hash).length = 20 := by
    rw [hexDecode_length, hhlen]
  have hclen : (serializeEntry e ++ rest).length =
      e.mode.length + 1 + e.name.length + 1 + 20 + rest.length := by
    simp [serializeEntry, hhd]
    omega
  have hserial : serializeEntry e ++ rest =
      (e.mode ++ [32] ++ e.name ++ [0]) ++ (hexDecode e.hash ++ rest) := by
    simp [serializeEntry, List.append_assoc]
  have hplen : (e.mode ++ [32] ++ e.name ++ [0]).length =
      e.mode.length + 1 + e.name.length + 1 := by
    simp
    omega
  -- step 3 is identical in both mode-length branches; prove it generally
  have step3 : ∀ (p : Nat), p = e.mode.length + 1 + e.name.length →
      parseTreeAux (serializeEntry e ++ rest) (fuel + 1) 3 (p + 1) (p + 21)
        e.mode e.name acc =
      parseTreeAux rest fuel 1 0 6 e.mode e.name (acc ++ [e]) := by
    intro p hp
    rw [show fuel + 1 = Nat.succ fuel from rfl, parseTreeAux.eq_4]
    rw [if_pos (by rw [hclen]; omega)]
    have hslice : slice? (serializeEntry e ++ rest) (p + 1) (p + 21) =
        some (hexDecode e.hash) := by
      unfold slice?
      rw [if_pos ⟨by omega, by rw [hclen]; omega⟩]
      unfold goSlice
      rw [show p + 21 - (p + 1) = 20 by omega]
      rw [hserial, show p + 1 = (e.mode ++ [32] ++ e.name ++ [0]).length by
            rw [hplen]; omega,
          List.drop_left,
          show (20 : Nat) = (hexDecode e.hash).length from hhd.symm,
          List.take_left]
    simp only [hslice]
    have hhash : trimSpace (hexEncode (hexDecode e.hash)) = e.hash := by
      rw [hexEncode_hexDecode e.hash hhex (by rw [hhlen])]
      exact trimSpace_eq_self (fun b hb => isWhite_false_of_hex (hhex b hb))
    rw [hhash]
    have hentry : (⟨e.mode, e.name, e.hash⟩ : TreeEntry) = e := by
      cases e
      rfl
    rw [hentry]
    have hrec : p + 21 = (serializeEntry e).length := by
      have : (serializeEntry e).length =
          e.mode.length + 1 + e.name.length + 1 + 20 := by
        simp [serializeEntry, hhd]
        omega
      omega
    rw [show p + 21 = (serializeEntry e).length + 0 by omega,
        show (serializeEntry e).length + 0 + 6 = (serializeEntry e).length + 6
          by omega]
    exact parseTreeAux_shift (serializeEntry e) rest fuel 1 0 6 e.mode e.name
      (acc ++ [e])
  -- step 2, parameterized by the segment the scan walks over
  have step2 : ∀ (seg : List Nat), (∀ b ∈ seg, b ≠ 0) →
      trimSpace seg = e.name →
      (serializeEntry e ++ rest).drop 6 =
        seg ++ 0 :: (hexDecode e.hash ++ rest) →
      6 + seg.length = e.mode.length + 1 + e.name.length →
      parseTreeAux (serializeEntry e ++ rest) (fuel + 2) 2 6 6 e.mode n0 acc =
      parseTreeAux rest fuel 1 0 6 e.mode e.name (acc ++ [e]) := by
    intro seg hsegz hsegtrim hsegdrop hseglen
    rw [show fuel + 2 = Nat.succ (fuel + 1) from rfl, parseTreeAux.eq_3]
    rw [if_pos (by rw [hclen]; omega)]
    have hscan : treeScan (serializeEntry e ++ rest) 6 =
        some (6 + seg.length) := by
      unfold treeScan
      rw [hsegdrop]
      exact scanGo_to_nul seg 6 _ _ hsegz (by rw [hclen]; omega)
    simp only [hscan]
    have hslice : slice? (serializeEntry e ++ rest) 6 (6 + seg.length) =
        some seg := by
      unfold slice?
      rw [if_pos ⟨by omega, by rw [hclen]; omega⟩]
      unfold goSlice
      rw [hsegdrop, show 6 + seg.length - 6 = seg.length by omega,
          List.take_left]
    simp only [hslice, hsegtrim]
    exact step3 (6 + seg.length) hseglen
  -- step 1, then dispatch on the mode length
  rw [show fuel + 3 = Nat.succ (fuel + 2) from rfl, parseTreeAux.eq_2]
  rw [if_pos (by rw [hclen]; omega)]
  rcases hmlen with h5 | h6
  · have hassoc : serializeEntry e ++ rest =
        (e.mode ++ [32]) ++ (e.name ++ 0 :: (hexDecode e.hash ++ rest)) := by
      simp [serializeEntry, List.append_assoc]
    have hslice : slice? (serializeEntry e ++ rest) 0 6 =
        some (e.mode ++ [32]) := by
      unfold slice?
      rw [if_pos ⟨by omega, by rw [hclen]; omega⟩]
      unfold goSlice
      rw [List.drop_zero, Nat.sub_zero, hassoc,
          show (6 : Nat) = (e.mode ++ [32]).length by simp [h5],
          List.take_left]
    simp only [hslice]
    rw [trimSpace_append_space (by intro hx; rw [hx] at h5; cases h5) hmw]
    exact step2 e.name hnz (trimSpace_eq_self hnw)
      (by rw [hassoc, show (6 : Nat) = (e.mode ++ [32]).length by simp [h5],
              List.drop_left])
      (by omega)
  · have hassoc : serializeEntry e ++ rest =
        e.mode ++ ((32 :: e.name) ++ 0 :: (hexDecode e.hash ++ rest)) := by
      simp [serializeEntry, List.append_assoc]
    have hslice : slice? (serializeEntry e ++ rest) 0 6 = some e.mode := by
      unfold slice?
      rw [if_pos ⟨by omega, by rw [hclen]; omega⟩]
      unfold goSlice
      rw [List.drop_zero, Nat.sub_zero, hassoc,
          show (6 : Nat) = e.mode.length by omega,
          List.take_left]
    simp only [hslice]
    rw [trimSpace_eq_self hmw]
    exact step2 (32 :: e.name)
      (by
        intro b hb
        rcases List.mem_cons.mp hb with rfl | hb'
        · decide
        · exact hnz b hb')
      (by rw [trimSpace_cons_space]; exact trimSpace_eq_self hnw)
      (by rw [hassoc, show (6 : Nat) = e.mode.length by omega, List.drop_left])
      (by simp only [List.length_cons]; omega)

/-- Serialization produces at least one byte per entry. -/
lemma serializeTree_length : ∀ (es : List TreeEntry),
    es.length ≤ (serializeTree es).length
  | [] => Nat.le_refl _
  | e :: t => by
    show t.length + 1 ≤ (serializeEntry e ++ serializeTree t).length
    rw [List.length_append]
    have h1 := serializeTree_length t
    have h2 : 1 ≤ (serializeEntry e).length := by
      unfold serializeEntry
      simp
      omega
    omega

/-- The parsing loop over a serialized well-formed entry list returns the
accumulated entries followed by that list. -/
lemma parseTreeAux_serialize : ∀ (es acc : List TreeEntry)
    (m0 n0 : List Nat) (fuel : Nat),
    (∀ e ∈ es, WFEntry e) → 3 * es.length + 1 ≤ fuel →
    parseTreeAux (serializeTree es) fuel 1 0 6 m0 n0 acc = some (acc ++ es)
  | [], acc, m0, n0, fuel => by
    intro _ hfuel
    obtain ⟨f, rfl⟩ : ∃ f, fuel = f + 1 := ⟨fuel - 1, by omega⟩
    rw [show serializeTree [] = [] from rfl,
        show f + 1 = Nat.succ f from rfl, parseTreeAux.eq_2]
    rw [if_neg (by simp)]
    simp
  | e :: es', acc, m0, n0, fuel => by
    intro hwf hfuel
    obtain ⟨f, rfl⟩ : ∃ f, fuel = f + 3 := by
      refine ⟨fuel - 3, ?_⟩
      simp only [List.length_cons] at hfuel
      omega
    rw [show serializeTree (e :: es') = serializeEntry e ++ serializeTree es'
          from rfl]
    rw [parseTreeAux_record e (hwf e (by simp)) _ f m0 n0 acc]
    rw [parseTreeAux_serialize es' (acc ++ [e]) e.mode e.name f
      (fun x hx => hwf x (by simp [hx]))
      (by simp only [List.length_cons] at hfuel; omega)]
    simp

/-- C7: parsing the on-disk serialization of any well-formed entry list
returns exactly those entries, in order (the empty list — the empty tree —
included). -/
theorem parseTree_roundtrip (es : List TreeEntry)
    (hwf : ∀ e ∈ es, WFEntry e) :
    parseTree (serializeTree es) = some es := by
  unfold parseTree
  have := serializeTree_length es
  exact parseTreeAux_serialize es [] [] [] _ hwf (by omega)

/-- Two well-formed entries for the round-trip witness: a blob entry named
a with mode 100644, and a directory entry named dir with mode 40000. -/
def c7entries : List TreeEntry :=
  [⟨[49, 48, 48, 54, 52, 52], [97], List.replicate 40 97⟩,
   ⟨[52, 48, 48, 48, 48], [100, 105, 114], List.replicate 40 98⟩]

/-- Witness for C7 at the concrete entry list. -/
theorem parseTree_roundtrip_witness :
    parseTree (serializeTree c7entries) = some c7entries :=
  parseTree_roundtrip c7entries (by decide)

/-! ## Scan failure behaviour (claim C1) -/

/-- The two directory entries of the small loose-object stores below. -/
def c1dirs : Store :=
  [⟨[[111]], true, false, false, false, [], [], false, []⟩,
   ⟨[[111], [97, 98]], true, false, false, false, [], [], false, []⟩]

/-- A readable, well-compressed loose object file o/ab/cd. -/
def c1good : FileEntry :=
  ⟨[[111], [97, 98], [99, 100]], false, false, false, false,
   [98, 108, 111, 98, 32, 49, 0, 120], [], false, []⟩

/-- A loose object file o/ab/ee whose compressed stream is corrupt. -/
def c1bad : FileEntry :=
  ⟨[[111], [97, 98], [101, 101]], false, false, false, true, [], [], false, []⟩

/-- The object built from the good file. -/
def c1goodObj : Object :=
  ⟨blobTag, [49], [111, 47, 97, 98, 47, 99, 100], [97, 98, 99, 100], [120]⟩

/-- C1 counterexample: without the corrupt file the scan yields the map
with the good object; adding one corrupt loose-object file makes the whole
scan abort (log.Fatal, modelled none) instead of skipping that object and
keeping the good one. -/
theorem scan_aborts_on_corrupt_object :
    getObjects [[111]] (c1dirs ++ [c1good]) =
      some [([97, 98, 99, 100], c1goodObj)] ∧
    getObjects [[111]] (c1dirs ++ [c1good, c1bad]) = none := by
  refine ⟨by decide, by decide⟩

/-- A failing candidate entry fails the step from any accumulated map. -/
lemma getObjectsStep_none_of_bad {e : FileEntry}
    (hdir : e.isDir = false) (hhex : isHexName (baseOfPath e.path) = true)
    (hbytes : getBytes e true = none) (m : ObjMap) :
    getObjectsStep m e = none := by
  unfold getObjectsStep
  by_cases hw : e.walkErr
  · rw [if_pos hw]
  · rw [if_neg hw, if_pos (by simp [hdir, hhex])]
    unfold newObjectEntry
    rw [hbytes]
    rfl

/-- A walk-error entry fails the step from any accumulated map. -/
lemma getObjectsStep_none_of_walkErr {e : FileEntry}
    (hw : e.walkErr = true) (m : ObjMap) : getObjectsStep m e = none := by
  unfold getObjectsStep
  rw [if_pos hw]

/-- A fold that meets an always-failing entry fails. -/
lemma foldlM_none_of_mem {es : List FileEntry} {e : FileEntry}
    (hmem : e ∈ es) (hfail : ∀ m : ObjMap, getObjectsStep m e = none) :
    ∀ m : ObjMap, es.foldlM getObjectsStep m = none := by
  induction es with
  | nil => cases hmem
  | cons a rest ih =>
    intro m
    rw [List.foldlM_cons]
    rcases List.mem_cons.mp hmem with rfl | hmem'
    · rw [hfail m]
      rfl
    · cases hstep : getObjectsStep m a with
      | none => rfl
      | some m1 => exact ih hmem' m1

/-- C1 amended: an I/O or decompression failure while reading any one
matched loose-object file aborts the entire scan via log.Fatal — no
per-object skipping happens — and a walk error (such as an unreadable
directory) aborts it likewise. -/
theorem scan_aborts_on_object_read_failure (root : List (List Nat))
    (fs : Store) (e : FileEntry) (hmem : e ∈ walkFrom root fs) :
    (e.isDir = false → isHexName (baseOfPath e.path) = true →
      getBytes e true = none → getObjects root fs = none) ∧
    (e.walkErr = true → getObjects root fs = none) := by
  constructor
  · intro hdir hhex hbytes
    exact foldlM_none_of_mem hmem
      (getObjectsStep_none_of_bad hdir hhex hbytes) []
  · intro hw
    exact foldlM_none_of_mem hmem (getObjectsStep_none_of_walkErr hw) []

/-- Witness for C1 amended at the concrete corrupt store. -/
theorem scan_aborts_on_object_read_failure_witness :
    getObjects [[111]] (c1dirs ++ [c1good, c1bad]) = none :=
  (scan_aborts_on_object_read_failure [[111]] (c1dirs ++ [c1good, c1bad])
      c1bad (by decide)).1 (by decide) (by decide) (by decide)

/-! ## refresh versus open scan root (claim C2) -/

/-- The repository location r. -/
def c2loc : List (List Nat) := [[114]]

/-- A store: the repository root r, its .git/objects subtree holding one
loose object ab/cd, and one working-tree file r/beef whose base name is
all hex and whose bytes happen to decompress to a valid object. -/
def c2fs : Store :=
  [⟨[[114]], true, false, false, false, [], [], false, []⟩,
   ⟨[[114], [46, 103, 105, 116]], true, false, false, false, [], [], false, []⟩,
   ⟨[[114], [46, 103, 105, 116], [111, 98, 106, 101, 99, 116, 115]],
     true, false, false, false, [], [], false, []⟩,
   ⟨[[114], [46, 103, 105, 116], [111, 98, 106, 101, 99, 116, 115], [97, 98]],
     true, false, false, false, [], [], false, []⟩,
   ⟨[[114], [46, 103, 105, 116], [111, 98, 106, 101, 99, 116, 115], [97, 98],
      [99, 100]],
     false, false, false, false, [98, 108, 111, 98, 32, 49, 0, 120], [],
     false, []⟩,
   ⟨[[114], [98, 101, 101, 102]], false, false, false, false,
     [98, 108, 111, 98, 32, 49, 0, 121], [], false, []⟩]

/-- The map NewRepo builds over that store (scanning .git/objects). -/
def c2openMap : ObjMap :=
  [([97, 98, 99, 100],
    ⟨blobTag, [49],
     [114, 47, 46, 103, 105, 116, 47, 111, 98, 106, 101, 99, 116, 115, 47,
      97, 98, 47, 99, 100],
     [97, 98, 99, 100], [120]⟩)]

/-- The map refresh builds over the same unchanged store (scanning the
repository root instead). -/
def c2refreshMap : ObjMap :=
  [([97, 98, 99, 100],
    ⟨blobTag, [49],
     [114, 47, 46, 103, 105, 116, 47, 111, 98, 106, 101, 99, 116, 115, 47,
      97, 98, 47, 99, 100],
     [97, 98, 99, 100], [120]⟩),
   ([114, 98, 101, 101, 102],
    ⟨blobTag, [49], [114, 47, 98, 101, 101, 102], [114, 98, 101, 101, 102],
     [121]⟩)]

/-- C2: refresh does not re-run the scan NewRepo runs.  NewRepo scans
gitDir(location)/objects while refresh scans r.Location itself, so over
the same unchanged store the refreshed map picks up the working-tree file
r/beef as an object named rbeef, absent from the map open builds. -/
theorem refresh_scans_repo_root_not_objects :
    newRepo c2loc c2fs [104] = some ⟨c2loc, c2openMap, [104]⟩ ∧
    refresh ⟨c2loc, c2openMap, [104]⟩ c2fs =
      some ⟨c2loc, c2refreshMap, [104]⟩ ∧
    mapGet c2openMap [114, 98, 101, 101, 102] = none ∧
    mapGet c2refreshMap [114, 98, 101, 101, 102] =
      some ⟨blobTag, [49], [114, 47, 98, 101, 101, 102],
            [114, 98, 101, 101, 102], [121]⟩ ∧
    c2refreshMap ≠ c2openMap := by
  refine ⟨by decide, by decide, by decide, by decide, by decide⟩

/-! ## Snapshot building with dangling tree references (claim C3) -/

/-- Content of a commit whose tree id (forty a bytes) is not in the map. -/
def c3commitContent : List Nat :=
  treeLine ++ authorLine ++ [10] ++ committerLine ++ [10, 10, 109, 10]

/-- An object map holding that commit and one blob, and nothing else — in
particular no tree named by forty a bytes. -/
def c3objs : ObjMap :=
  [([99, 99], ⟨commitTag, [48], [], [99, 99], c3commitContent⟩),
   ([98, 98], ⟨blobTag, [49], [], [98, 98], [120]⟩)]

/-- C3 counterexample: the repository holds a commit whose treeId (forty a
bytes) is absent from the object map, and also a blob; building the
snapshot is fatal — FindFirstInstanceOfBlob dereferences the missing tree
through the nil map read — so no node or edge document is produced at
all. -/
theorem snapshot_fatal_on_blob_with_missing_tree :
    mapGet c3objs (List.replicate 40 97) = none ∧
    (parseCommit c3commitContent).map (fun c => c.tree) =
      some (List.replicate 40 97) ∧
    toJsonGraph ⟨[], c3objs, []⟩ [120] [] = none := by
  refine ⟨by decide, by decide, by decide⟩

/-- The per-object conditions under which the graph build cannot abort:
parseable commits, parseable trees, and no blobs at all. -/
def objOK (o : Object) : Prop :=
  (o.type_ = commitTag → (parseCommit o.content).isSome) ∧
  (o.type_ = treeTag → (parseTree o.content).isSome) ∧
  o.type_ ≠ blobTag

/-- A stored object can always be looked up under its own name. -/
lemma mapGet_isSome_of_mem {m : ObjMap} (hkeys : pairInv m)
    {k : List Nat} {o : Object} (hmem : (k, o) ∈ m) :
    (mapGet m o.name).isSome := by
  have hk : o.name = k := hkeys (k, o) hmem
  unfold mapGet
  cases hf : m.find? (fun p => p.1 = o.name) with
  | none =>
    exfalso
    have := List.find?_eq_none.mp hf (k, o) hmem
    simp [hk] at this
  | some q => rfl

/-- The object/time pairs built for sorting project back onto the commit
list. -/
lemma mapM_time_pairs :
    ∀ (cs : List Object) (pairs : List (Object × Int)),
      cs.mapM (fun o => (parseCommit o.content).map
        (fun c => (o, c.commitTime))) = some pairs →
      pairs.map Prod.fst = cs := by
  intro cs
  induction cs with
  | nil =>
    intro pairs h
    cases h
    rfl
  | cons o rest ih =>
    intro pairs h
    rw [List.mapM_cons] at h
    cases hp : (parseCommit o.content).map (fun c => (o, c.commitTime)) with
    | none => rw [hp] at h; cases h
    | some p =>
      rw [hp] at h
      cases hr : rest.mapM (fun o => (parseCommit o.content).map
          (fun c => (o, c.commitTime))) with
      | none => rw [hr] at h; simp at h
      | some ps =>
        rw [hr] at h
        simp only [Option.pure_def, Option.bind_some, Option.bind_eq_bind,
          Option.some_bind, Option.some.injEq] at h
        have hfst : p.1 = o := by
          cases hpc : parseCommit o.content with
          | none => rw [hpc] at hp; cases hp
          | some c =>
            rw [hpc] at hp
            simp at hp
            rw [← hp]
        rw [← h]
        simp [hfst, ih ps hr]

/-- Membership in an insertion step. -/
lemma mem_insertByTime {q p : Object × Int} :
    ∀ {l : List (Object × Int)}, q ∈ insertByTime p l → q = p ∨ q ∈ l := by
  intro l
  induction l with
  | nil =>
    intro h
    simp [insertByTime] at h
    exact Or.inl h
  | cons a rest ih =>
    intro h
    unfold insertByTime at h
    split at h
    · rcases List.mem_cons.mp h with h1 | h2
      · exact Or.inl h1
      · exact Or.inr h2
    · rcases List.mem_cons.mp h with h1 | h2
      · exact Or.inr (by simp [h1])
      · rcases ih h2 with h3 | h4
        · exact Or.inl h3
        · exact Or.inr (by simp [h4])

/-- Membership survives the time sort. -/
lemma mem_sortByTime {q : Object × Int} :
    ∀ {l : List (Object × Int)}, q ∈ sortByTime l → q ∈ l := by
  intro l
  induction l with
  | nil =>
    intro h
    simp [sortByTime] at h
  | cons a rest ih =>
    intro h
    rcases mem_insertByTime (l := sortByTime rest) h with h1 | h2
    · simp [h1]
    · exact List.mem_cons_of_mem a (ih h2)

/-- Every commit GetCommits returns comes from the value list and carries
the commit type tag. -/
lemma getCommitsList_mem {vals commits : List Object}
    (h : getCommitsList vals = some commits) :
    ∀ o ∈ commits, o ∈ vals ∧ o.type_ = commitTag := by
  unfold getCommitsList at h
  dsimp only at h
  split at h
  · cases h
    intro o ho
    have := List.mem_filter.mp ho
    exact ⟨this.1, by simpa using this.2⟩
  · cases hm : (vals.filter (fun o => o.type_ == commitTag)).mapM
        (fun o => (parseCommit o.content).map (fun c => (o, c.commitTime))) with
    | none => rw [hm] at h; cases h
    | some pairs =>
      rw [hm] at h
      simp only [Option.map_some', Option.some.injEq] at h
      have hfst := mapM_time_pairs _ _ hm
      intro o ho
      rw [← h] at ho
      rcases List.mem_map.mp ho with ⟨p, hp, hpo⟩
      have hpin : p ∈ pairs := mem_sortByTime hp
      have : p.1 ∈ vals.filter (fun o => o.type_ == commitTag) := by
        rw [← hfst]
        exact List.mem_map_of_mem Prod.fst hpin
      have hf := List.mem_filter.mp this
      rw [← hpo]
      exact ⟨hf.1, by simpa using hf.2⟩

/-- When every commit-typed value parses, GetCommits succeeds. -/
lemma getCommitsList_isSome (vals : List Object)
    (hall : ∀ o ∈ vals, o.type_ = commitTag → (parseCommit o.content).isSome) :
    (getCommitsList vals).isSome := by
  unfold getCommitsList
  dsimp only
  split
  · rfl
  · have : ∀ (cs : List Object),
        (∀ o ∈ cs, (parseCommit o.content).isSome) →
        (cs.mapM (fun o => (parseCommit o.content).map
          (fun c => (o, c.commitTime)))).isSome := by
      intro cs
      induction cs with
      | nil => intro _; rfl
      | cons o rest ih =>
        intro hcs
        rw [List.mapM_cons]
        cases hp : parseCommit o.content with
        | none =>
          have := hcs o (by simp)
          rw [hp] at this
          cases this
        | some c =>
          have hrest := ih (fun o ho => hcs o (List.mem_cons_of_mem _ ho))
          cases hr : rest.mapM (fun o => (parseCommit o.content).map
              (fun c => (o, c.commitTime))) with
          | none => rw [hr] at hrest; cases hrest
          | some ps => simp [hp, hr]
    have hm := this (vals.filter (fun o => o.type_ == commitTag))
      (fun o ho => hall o (List.mem_filter.mp ho).1
        (by simpa using (List.mem_filter.mp ho).2))
    cases hmm : (vals.filter (fun o => o.type_ == commitTag)).mapM
        (fun o => (parseCommit o.content).map (fun c => (o, c.commitTime))) with
    | none => rw [hmm] at hm; cases hm
    | some pairs => simp [hmm]

/-- The owning-commit search succeeds on parseable commits. -/
lemma treeCommitSearch_isSome {obj : Object} :
    ∀ {commits : List Object},
      (∀ o ∈ commits, (parseCommit o.content).isSome) →
      (treeCommitSearch obj commits).isSome := by
  intro commits
  induction commits with
  | nil => intro _; rfl
  | cons o rest ih =>
    intro hall
    have hp := hall o (by simp)
    cases hpc : parseCommit o.content with
    | none => rw [hpc] at hp; cases hp
    | some c =>
      unfold treeCommitSearch
      simp only [hpc]
      split
      · rfl
      · exact ih (fun o ho => hall o (List.mem_cons_of_mem _ ho))

/-- The lookup step of GetTreeCommit cannot abort when the name resolves
and every commit parses. -/
lemma getTreeCommit_isSome {m : ObjMap} (name : List Nat)
    {commits : List Object} (hget : (mapGet m name).isSome)
    (hcomm : ∀ o ∈ commits, (parseCommit o.content).isSome) :
    (getTreeCommit m name commits).isSome := by
  unfold getTreeCommit
  cases hgt : mapGet m name with
  | none => rw [hgt] at hget; cases hget
  | some tobj =>
    dsimp only
    by_cases h2 : (tobj.type_ == treeTag) = true
    · rw [if_pos h2]
      exact treeCommitSearch_isSome hcomm
    · rw [if_neg h2]
      rfl

/-- The marshalling precheck succeeds under the per-object conditions. -/
lemma toJsonCheck_some {obj : Object} (hok : objOK obj) :
    toJsonCheck obj = some () := by
  obtain ⟨hokc, hokt, hokb⟩ := hok
  unfold toJsonCheck
  by_cases ht : obj.type_ = treeTag
  · have := hokt ht
    cases hpt : parseTree obj.content with
    | none => rw [hpt] at this; cases this
    | some entries =>
      have e1 : (obj.type_ == treeTag) = true := by simp [ht]
      rw [e1]
      simp [hpt]
  · have e1 : (obj.type_ == treeTag) = false := by simp [ht]
    rw [e1]
    simp only [Bool.false_eq_true, if_false]
    by_cases hc : obj.type_ = commitTag
    · have := hokc hc
      cases hpc : parseCommit obj.content with
      | none => rw [hpc] at this; cases this
      | some c =>
        have e2 : (obj.type_ == commitTag) = true := by simp [hc]
        rw [e2]
        simp [hpc]
    · have e2 : (obj.type_ == commitTag) = false := by simp [hc]
      have e3 : (obj.type_ == blobTag) = false := by simp [hokb]
      rw [e2]
      simp only [Bool.false_eq_true, if_false]
      rw [e3]
      simp

/-- One object's graph contribution cannot abort under the per-object
conditions. -/
lemma getNodesAndEdges_some {m : ObjMap} {commits : List Object}
    {k : List Nat} {obj : Object}
    (hkeys : pairInv m) (hmem : (k, obj) ∈ m) (hok : objOK obj)
    (hcomm : ∀ o ∈ commits, (parseCommit o.content).isSome) :
    (getNodesAndEdges m commits obj).isSome := by
  have hcheck := toJsonCheck_some hok
  obtain ⟨hokc, hokt, hokb⟩ := hok
  unfold getNodesAndEdges
  rw [hcheck]
  by_cases hc : obj.type_ = commitTag
  · have := hokc hc
    cases hpc : parseCommit obj.content with
    | none => rw [hpc] at this; cases this
    | some c => simp [hc, hpc]
  · by_cases ht : obj.type_ = treeTag
    · have := hokt ht
      cases hpt : parseTree obj.content with
      | none => rw [hpt] at this; cases this
      | some entries =>
        have e1 : (obj.type_ == commitTag) = false := by simp [hc]
        have e2 : (obj.type_ == treeTag) = true := by simp [ht]
        rw [e1]
        simp only [Bool.false_eq_true, if_false, e2, if_true, hpt,
          Option.some_bind]
        have htc := getTreeCommit_isSome obj.name
          (mapGet_isSome_of_mem hkeys hmem) hcomm
        cases hgtc : getTreeCommit m obj.name commits with
        | none => rw [hgtc] at htc; cases htc
        | some tc => simp [hgtc]
    · have e1 : (obj.type_ == commitTag) = false := by simp [hc]
      have e2 : (obj.type_ == treeTag) = false := by simp [ht]
      have e3 : (obj.type_ == blobTag) = false := by simp [hokb]
      rw [e1]
      simp only [Bool.false_eq_true, if_false]
      rw [e2]
      simp only [Bool.false_eq_true, if_false]
      rw [e3]
      simp

/-- A successful fold contains every member object's contribution. -/
lemma buildAll_mem {m : ObjMap} {commits : List Object} :
    ∀ {objs : List Object} {ns : List GNode} {es : List Edge},
      buildAll m commits objs = some (ns, es) →
      ∀ o ∈ objs, ∃ n1 e1, getNodesAndEdges m commits o = some (n1, e1) ∧
        (∀ x ∈ n1, x ∈ ns) ∧ (∀ x ∈ e1, x ∈ es) := by
  intro objs
  induction objs with
  | nil =>
    intro ns es h o ho
    cases ho
  | cons a rest ih =>
    intro ns es h o ho
    rw [buildAll] at h
    cases hstep : getNodesAndEdges m commits a with
    | none => rw [hstep] at h; cases h
    | some p =>
      rw [hstep] at h
      cases hrest : buildAll m commits rest with
      | none => rw [hrest] at h; cases h
      | some q =>
        rw [hrest] at h
        simp only [Option.map_some', Option.some.injEq] at h
        have hns : p.1 ++ q.1 = ns := congrArg Prod.fst h
        have hes : p.2 ++ q.2 = es := congrArg Prod.snd h
        rcases List.mem_cons.mp ho with rfl | ho'
        · refine ⟨p.1, p.2, by simp [hstep], ?_, ?_⟩
          · intro x hx
            rw [← hns]
            simp [hx]
          · intro x hx
            rw [← hes]
            simp [hx]
        · rcases ih hrest o ho' with ⟨n1, e1, hsome, hn, he⟩
          refine ⟨n1, e1, hsome, ?_, ?_⟩
          · intro x hx
            rw [← hns]
            simp [hn x hx]
          · intro x hx
            rw [← hes]
            simp [he x hx]

/-- When every contribution succeeds, the fold succeeds. -/
lemma buildAll_isSome {m : ObjMap} {commits : List Object} :
    ∀ {objs : List Object},
      (∀ o ∈ objs, (getNodesAndEdges m commits o).isSome) →
      (buildAll m commits objs).isSome := by
  intro objs
  induction objs with
  | nil => intro _; rfl
  | cons a rest ih =>
    intro hall
    rw [buildAll]
    have ha := hall a (by simp)
    cases hstep : getNodesAndEdges m commits a with
    | none => rw [hstep] at ha; cases ha
    | some p =>
      have hrest := ih (fun o ho => hall o (List.mem_cons_of_mem _ ho))
      cases hr : buildAll m commits rest with
      | none => rw [hr] at hrest; cases hrest
      | some q => simp [hr]

/-- C3 amended: in a repository whose object map is keyed by name, whose
commits and trees all parse, and which contains no blob object, a commit
whose treeId is absent from the map still yields a node for the commit and
an edge from the commit to the missing treeId, and the snapshot build
completes without a fatal error.  (With a blob present the build can
instead abort, as the counterexample shows.) -/
theorem snapshot_keeps_dangling_tree_edge
    (r : Repo) (headContent : List Nat)
    (branchFiles : List (List Nat × List Nat))
    (k : List Nat) (cobj : Object) (pc : Commit)
    (hkeys : pairInv r.objects)
    (hwf : ∀ p ∈ r.objects, objOK p.2)
    (hk : (k, cobj) ∈ r.objects)
    (hct : cobj.type_ = commitTag)
    (hpc : parseCommit cobj.content = some pc)
    (hmiss : mapGet r.objects pc.tree = none) :
    ∃ ns es, toJsonGraph r headContent branchFiles = some (ns, es) ∧
      (⟨cobj.name, commitTag, none⟩ : GNode) ∈ ns ∧
      (⟨cobj.name, pc.tree⟩ : Edge) ∈ es := by
  have hvals : ∀ o ∈ r.objects.map (fun p => p.2), objOK o := by
    intro o ho
    rcases List.mem_map.mp ho with ⟨p, hp, hpo⟩
    rw [← hpo]
    exact hwf p hp
  have hcommitsSome := getCommitsList_isSome (r.objects.map (fun p => p.2))
    (fun o ho hc => (hvals o ho).1 hc)
  cases hcl : getCommitsList (r.objects.map (fun p => p.2)) with
  | none => rw [hcl] at hcommitsSome; cases hcommitsSome
  | some commits =>
    have hcomm : ∀ o ∈ commits, (parseCommit o.content).isSome := by
      intro o ho
      have hmem := getCommitsList_mem hcl o ho
      exact (hvals o hmem.1).1 hmem.2
    have hballSome : (buildAll r.objects commits
        (r.objects.map (fun p => p.2))).isSome := by
      apply buildAll_isSome
      intro o ho
      rcases List.mem_map.mp ho with ⟨p, hp, hpo⟩
      have : p = (p.1, p.2) := rfl
      rw [← hpo]
      exact getNodesAndEdges_some hkeys (by rw [← this]; exact hp)
        (hwf p hp) hcomm
    cases hball : buildAll r.objects commits (r.objects.map (fun p => p.2)) with
    | none => rw [hball] at hballSome; cases hballSome
    | some p =>
      obtain ⟨nodes, edges⟩ := p
      have hcmem : cobj ∈ r.objects.map (fun p => p.2) :=
        List.mem_map_of_mem (fun p => p.2) hk
      rcases buildAll_mem hball cobj hcmem with ⟨n1, e1, hsome, hn, he⟩
      have hcontrib : getNodesAndEdges r.objects commits cobj =
          some ([⟨cobj.name, cobj.type_, none⟩],
            pc.parents.map (fun q => ⟨cobj.name, q⟩) ++
              [⟨cobj.name, pc.tree⟩]) := by
        have hcheck : toJsonCheck cobj = some () := toJsonCheck_some (hwf (k, cobj) hk)
        unfold getNodesAndEdges
        rw [hcheck]
        simp [hct, hpc]
      rw [hcontrib] at hsome
      injection hsome with hpair
      injection hpair with hn1 he1
      have hnode : (⟨cobj.name, cobj.type_, none⟩ : GNode) ∈ nodes := by
        apply hn
        rw [← hn1]
        simp
      have hedge : (⟨cobj.name, pc.tree⟩ : Edge) ∈ edges := by
        apply he
        rw [← he1]
        simp
      unfold toJsonGraph
      dsimp only
      rw [hcl]
      dsimp only
      rw [hball]
      dsimp only
      refine ⟨_, _, rfl, ?_, ?_⟩
      · rw [hct] at hnode
        simp [hnode]
      · simp [hedge]

/-- A repository with the dangling commit and no blob, for the witness. -/
def c3objsNoBlob : ObjMap :=
  [([99, 99], ⟨commitTag, [48], [], [99, 99], c3commitContent⟩)]

/-- Witness for C3 amended: without the blob the build completes and keeps
the commit node and its dangling tree edge. -/
theorem snapshot_keeps_dangling_tree_edge_witness :
    ∃ ns es, toJsonGraph ⟨[], c3objsNoBlob, []⟩ [120] [] = some (ns, es) ∧
      (⟨[99, 99], commitTag, none⟩ : GNode) ∈ ns ∧
      (⟨[99, 99], List.replicate 40 97⟩ : Edge) ∈ es :=
  snapshot_keeps_dangling_tree_edge ⟨[], c3objsNoBlob, []⟩ [120] []
    [99, 99] ⟨commitTag, [48], [], [99, 99], c3commitContent⟩
    ⟨List.replicate 40 97, [], ⟨[65, 32], [60, 97, 62]⟩,
     ⟨[67, 32], [60, 99, 62]⟩, [109], 0, 0⟩
    (by
      intro p hp
      rw [show c3objsNoBlob =
        [([99, 99], ⟨commitTag, [48], [], [99, 99], c3commitContent⟩)] from rfl,
        List.mem_singleton] at hp
      subst hp
      decide)
    (by
      intro p hp
      rw [show c3objsNoBlob =
        [([99, 99], ⟨commitTag, [48], [], [99, 99], c3commitContent⟩)] from rfl,
        List.mem_singleton] at hp
      subst hp
      exact ⟨fun _ => by decide, fun h => absurd h (by decide), by decide⟩)
    (by decide) (by decide) (by decide) (by decide)

/-! ## Commit message extraction (claim C6) -/

/-- Strip one trailing newline, as the specification words it. -/
def stripOneTrailingNL (s : List Nat) : List Nat :=
  if s.getLast? = some 10 then s.dropLast else s

/-- The message the claim predicts: everything after the first blank line
of the content, with a single trailing newline stripped. -/
def claimedMessage (content : List Nat) : Option (List Nat) :=
  (afterBlank content).map stripOneTrailingNL

/-- A commit content whose message begins with a newline and contains a
blank line: newline, line1, blank, line2. -/
def c6input : List Nat :=
  treeLine ++ authorLine ++ [10] ++ committerLine ++ [10, 10, 10] ++
    [108, 105, 110, 101, 49] ++ [10, 10] ++ [108, 105, 110, 101, 50] ++ [10]

/-- C6 counterexample: on that content ParseCommit returns only line1 —
the leading newline is trimmed away and the message is cut at its internal
blank line — while the claim predicts the full newline, line1, blank,
line2 text. -/
theorem parseCommit_truncates_message :
    (parseCommit c6input).map (fun c => c.message) =
      some [108, 105, 110, 101, 49] ∧
    claimedMessage c6input =
      some [10, 108, 105, 110, 101, 49, 10, 10, 108, 105, 110, 101, 50] ∧
    (parseCommit c6input).map (fun c => c.message) ≠ claimedMessage c6input := by
  refine ⟨by decide, by decide, by decide⟩

/-- A content without a blank line is one whole split piece. -/
lemma split2NL_none : ∀ (s : List Nat), afterBlank s = none → split2NL s = [s]
  | [] => by
    intro _
    rw [split2NL.eq_3]
  | b :: rest => by
    intro h
    by_cases hb : ∃ r1, b = 10 ∧ rest = 10 :: r1
    · obtain ⟨r1, rfl, rfl⟩ := hb
      rw [afterBlank.eq_1] at h
      cases h
    · have hcond : (∀ (r1 : List Nat), b = 10 → rest = 10 :: r1 → False) :=
        fun r1 h1 h2 => hb ⟨r1, h1, h2⟩
      have hrest : afterBlank rest = none := by
        rw [afterBlank.eq_2 b rest hcond] at h
        exact h
      rw [split2NL.eq_2 b rest hcond, split2NL_none rest hrest]

/-- The first split piece is the segment before the first blank line. -/
lemma split2NL_head : ∀ (s : List Nat), (split2NL s).head? = some (beforeBlank s)
  | [] => by
    rw [split2NL.eq_3, beforeBlank.eq_3]
    rfl
  | b :: rest => by
    by_cases hb : ∃ r1, b = 10 ∧ rest = 10 :: r1
    · obtain ⟨r1, rfl, rfl⟩ := hb
      rw [split2NL.eq_1, beforeBlank.eq_1]
      rfl
    · have hcond : (∀ (r1 : List Nat), b = 10 → rest = 10 :: r1 → False) :=
        fun r1 h1 h2 => hb ⟨r1, h1, h2⟩
      have ih := split2NL_head rest
      rw [split2NL.eq_2 b rest hcond, beforeBlank.eq_2 b rest hcond]
      cases hsp : split2NL rest with
      | nil => rw [hsp] at ih; cases ih
      | cons hd t =>
        rw [hsp] at ih
        simp only [List.head?_cons, Option.some.injEq] at ih
        simp [ih]

/-- Splitting a content with a blank line peels off the segment before it. -/
lemma split2NL_after : ∀ (s r : List Nat), afterBlank s = some r →
    split2NL s = beforeBlank s :: split2NL r
  | [], r => by
    intro h
    rw [afterBlank.eq_3] at h
    cases h
  | b :: rest, r => by
    intro h
    by_cases hb : ∃ r1, b = 10 ∧ rest = 10 :: r1
    · obtain ⟨r1, rfl, rfl⟩ := hb
      rw [afterBlank.eq_1] at h
      cases h
      rw [split2NL.eq_1, beforeBlank.eq_1]
    · have hcond : (∀ (r1 : List Nat), b = 10 → rest = 10 :: r1 → False) :=
        fun r1 h1 h2 => hb ⟨r1, h1, h2⟩
      rw [afterBlank.eq_2 b rest hcond] at h
      have ih := split2NL_after rest r h
      rw [split2NL.eq_2 b rest hcond, beforeBlank.eq_2 b rest hcond, ih]

/-- C6 amended: the message ParseCommit returns is the segment of the
content past byte 46 strictly between the first blank-line separator and
the next one (or the end), with all leading and trailing newlines
stripped — not everything after the first blank line with one trailing
newline stripped. -/
theorem parseCommit_message_segment (content : List Nat) (c : Commit)
    (h : parseCommit content = some c) :
    ∃ r, afterBlank (content.drop 46) = some r ∧
      c.message = trimNL (beforeBlank r) := by
  unfold parseCommit at h
  cases h5 : slice? content 5 45 with
  | none => simp only [h5] at h; cases h
  | some th =>
    simp only [h5] at h
    by_cases h46 : 46 ≤ content.length
    · rw [if_pos h46] at h
      cases hsp : split2NL (content.drop 46) with
      | nil => simp only [hsp] at h; cases h
      | cons p0 t =>
        cases t with
        | nil => simp only [hsp] at h; cases h
        | cons m t2 =>
          simp only [hsp] at h
          cases hfold : (splitByte 10 (content.drop 46)).foldlM processLine
              initCommitState with
          | none => simp only [hfold] at h; cases h
          | some st =>
            simp only [hfold, Option.some.injEq] at h
            cases haf : afterBlank (content.drop 46) with
            | none =>
              have hone := split2NL_none _ haf
              rw [hone] at hsp
              cases hsp
            | some r =>
              refine ⟨r, rfl, ?_⟩
              have hstruct := split2NL_after _ r haf
              rw [hstruct] at hsp
              have hmt : split2NL r = m :: t2 := (List.cons.inj hsp).2
              have hhead := split2NL_head r
              rw [hmt] at hhead
              simp only [List.head?_cons, Option.some.injEq] at hhead
              rw [← h, hhead]
    · rw [if_neg h46] at h
      cases h

/-- The commit value ParseCommit extracts from c6input. -/
def c6commit : Commit :=
  ⟨List.replicate 40 97, [],
   ⟨[65, 32], [60, 97, 62]⟩, ⟨[67, 32], [60, 99, 62]⟩,
   [108, 105, 110, 101, 49], 0, 0⟩

/-- Witness for C6 amended at the concrete content. -/
theorem parseCommit_message_segment_witness :
    ∃ r, afterBlank (c6input.drop 46) = some r ∧
      c6commit.message = trimNL (beforeBlank r) :=
  parseCommit_message_segment c6input c6commit (by decide)

/-- Witness for C8 at the concrete sample payload. -/
theorem decode_header_fields_witness :
    newObjectData [[97, 98], [99, 100]]
        ([98, 108, 111, 98] ++ [32] ++ [53] ++ [0] ++
          [104, 101, 108, 108, 111]) =
      some ⟨trimSpace [98, 108, 111, 98], trimSpace [53],
            joinPath [[97, 98], [99, 100]],
            getObjectName [[97, 98], [99, 100]],
            [104, 101, 108, 108, 111]⟩ :=
  (decode_header_fields [[97, 98], [99, 100]] [98, 108, 111, 98] [53]
      [104, 101, 108, 108, 111] (by decide) (by decide)).1

end Dagit
